import Mathlib

/-!
# Verification of the UC BioSci dashboard analytics layer

A shallow embedding, in Lean 4, of the analytics core of the dashboard:
the record normalizer's `parseAuthorships`, the home-country inference
`computeHomeCountry`, the position-aware international classifier
`computeIntlLinks`, the partner-institution aggregator of
`drawTopRORPartners`, the co-authorship graph builder
`computeCoauthorGraph`, the topic-query filter (`normalizeText`, `stem`,
`tokenize`, `fuzzyQueryMatch` and the search haystack built in
`normalizePubsFor`), `jaccardDistance` and `classicalMDS2D`.

JavaScript strings are modelled as Lean `String`; pipe/semicolon splitting
is modelled character-exactly; JavaScript `Map`s (which preserve insertion
order) are modelled as association lists updated in place; JavaScript
`Set`s are modelled as duplicate-free lists in insertion order.  The
platform's Unicode NFKD normalizer combined with combining-mark removal
(`stripDiacritics`) is a parameter `strip : String → String` of the text
pipeline; numbers in the MDS code are modelled as real numbers and the
`Math.random` seeds of the power iteration are parameters.
-/

set_option maxRecDepth 8192

namespace Dashboard

/-! ## Generic small-step utilities: JS splits, sets and maps -/

/-- JS `String.prototype.split` with a one-character separator, at the
character level: `"a|b".split('|') = ["a","b"]` and `"".split('|') = [""]`. -/
def splitChar (sep : Char) : List Char → List (List Char)
  | [] => [[]]
  | c :: cs =>
    let r := splitChar sep cs
    if c = sep then [] :: r else (c :: r.headD []) :: r.tail

/-- `splitChar` never returns the empty list of groups. -/
theorem splitChar_ne_nil (sep : Char) (l : List Char) : splitChar sep l ≠ [] := by
  cases l with
  | nil => simp [splitChar]
  | cons c cs =>
    simp only [splitChar]
    by_cases hc : c = sep <;> simp [hc]

/-- JS code-unit lexicographic order (`a < b` for `Array.sort`'s default
string comparison). -/
def lexLtChars : List Char → List Char → Bool
  | [], [] => false
  | [], _ :: _ => true
  | _ :: _, [] => false
  | c :: cs, d :: ds => if c < d then true else if d < c then false else lexLtChars cs ds

/-- `a ≤ b` in JS string order. -/
def strLeJS (a b : String) : Bool := !(lexLtChars b.data a.data)

/-- JS `s.split(sep)` for a one-character separator, on `String`. -/
def splitStr (sep : Char) (s : String) : List String :=
  (splitChar sep s.data).map String.mk

/-- Insert into a JS `Set` modelled as an insertion-ordered duplicate-free
list: append the element unless it is already present. -/
def insertNew {α : Type} [DecidableEq α] (l : List α) (x : α) : List α :=
  if x ∈ l then l else l ++ [x]

theorem mem_insertNew_iff {α : Type} [DecidableEq α] {l : List α} {x y : α} :
    y ∈ insertNew l x ↔ y ∈ l ∨ y = x := by
  unfold insertNew
  by_cases h : x ∈ l
  · simp only [if_pos h]
    constructor
    · exact Or.inl
    · rintro (hy | rfl) <;> [exact hy; exact h]
  · simp [if_neg h]

theorem mem_insertNew_self {α : Type} [DecidableEq α] (l : List α) (x : α) :
    x ∈ insertNew l x :=
  mem_insertNew_iff.mpr (Or.inr rfl)

theorem mem_insertNew_of_mem {α : Type} [DecidableEq α] {l : List α} {y : α} (x : α)
    (h : y ∈ l) : y ∈ insertNew l x :=
  mem_insertNew_iff.mpr (Or.inl h)

theorem nodup_insertNew {α : Type} [DecidableEq α] {l : List α} (x : α)
    (h : l.Nodup) : (insertNew l x).Nodup := by
  unfold insertNew
  by_cases hx : x ∈ l
  · simpa [hx]
  · simp [hx, List.nodup_append, h]

/-- Insert into an already-sorted list (used to model JS `Array.sort`,
whose result is the stable sort of the array by the comparator). -/
def insertSorted {α : Type} (le : α → α → Bool) (x : α) : List α → List α
  | [] => [x]
  | y :: ys => if le x y then x :: y :: ys else y :: insertSorted le x ys

/-- JS `arr.sort(cmp)` modelled as an insertion sort by `le`. -/
def sortBy {α : Type} (le : α → α → Bool) (l : List α) : List α :=
  l.foldr (insertSorted le) []

theorem mem_insertSorted {α : Type} (le : α → α → Bool) (x y : α) (l : List α) :
    y ∈ insertSorted le x l ↔ y = x ∨ y ∈ l := by
  induction l with
  | nil => simp [insertSorted]
  | cons z zs ih =>
    simp only [insertSorted]
    by_cases h : le x z
    · simp [h]
    · simp only [if_neg h, List.mem_cons, ih]
      tauto

theorem mem_sortBy {α : Type} (le : α → α → Bool) (l : List α) (y : α) :
    y ∈ sortBy le l ↔ y ∈ l := by
  unfold sortBy
  induction l with
  | nil => simp
  | cons z zs ih =>
    simp only [List.foldr_cons, mem_insertSorted, List.mem_cons, ih]

/-- A fold-invariant helper for `List.foldl`. -/
theorem foldl_inv {α β : Type} (P : β → Prop) (f : β → α → β) (l : List α) (b : β)
    (hb : P b) (hf : ∀ b a, P b → a ∈ l → P (f b a)) : P (l.foldl f b) := by
  induction l generalizing b with
  | nil => exact hb
  | cons a l ih =>
    exact ih (f b a) (hf b a hb (by simp)) (fun b' a' h h' => hf b' a' h (by simp [h']))

/-! ## Field normalization helpers of the dashboard -/

/-- ASCII lowering of one character, the effective behaviour of JS
`toLowerCase` on the ASCII range (non-ASCII case folding is left to the
`strip` parameter of the text pipeline). -/
def lowerChar (c : Char) : Char :=
  if 'A' ≤ c ∧ c ≤ 'Z' then Char.ofNat (c.toNat + 32) else c

/-- ASCII raising of one character (JS `toUpperCase` on the ASCII range). -/
def upperChar (c : Char) : Char :=
  if 'a' ≤ c ∧ c ≤ 'z' then Char.ofNat (c.toNat - 32) else c

def lowerStr (s : String) : String := String.mk (s.data.map lowerChar)

def upperStr (s : String) : String := String.mk (s.data.map upperChar)

/-- The ASCII whitespace characters recognized by JS `\s` and `trim`
(the rarely-occurring Unicode space characters are not modelled). -/
def isWsChar (c : Char) : Bool :=
  c = ' ' || c = '\t' || c = '\n' || c = '\r'

/-- JS `String.prototype.trim`: strip leading and trailing whitespace. -/
def trimStr (s : String) : String :=
  String.mk (((s.data.dropWhile isWsChar).reverse.dropWhile isWsChar).reverse)

/-- `s.substring(0, n)` at the character level. -/
def strTake (s : String) (n : Nat) : String := String.mk (s.data.take n)

/-- `s.substring(n)` at the character level. -/
def strDrop (s : String) (n : Nat) : String := String.mk (s.data.drop n)

/-- `s.length` at the character level. -/
def strLen (s : String) : Nat := s.data.length

/-- JS `s.replace(/^https?:\/\/HOST/i, '')`: case-insensitively strip one
leading `https://HOST` or `http://HOST` (the anchored regex can only fire
once, at the start). `host` is given in lower case. -/
def stripHttp (host : String) (s : String) : String :=
  let p1 := "https://" ++ host
  let p2 := "http://" ++ host
  if lowerStr (strTake s (strLen p1)) = p1 then strDrop s (strLen p1)
  else if lowerStr (strTake s (strLen p2)) = p2 then strDrop s (strLen p2)
  else s

/-- `normalizeID`: accept raw OpenAlex ids or full URLs
(`String(id||'').replace(^authors-url).replace(^site-url).trim()`). -/
def normalizeID (id : String) : String :=
  trimStr (stripHttp "openalex.org/" (stripHttp "openalex.org/authors/" id))

/-- The id normalization used when building cohort id sets in
`computeHomeCountry`, `computeIntlLinks`, `computeHomeROR` and
`drawTopRORPartners`: only the authors URL prefix is stripped. -/
def cohortKey (s : String) : String := stripHttp "openalex.org/authors/" s

/-- The minimal ISO2 → ISO3 country table of the dashboard. -/
def ISO2_TO_3 : List (String × String) :=
  [("US","USA"), ("CA","CAN"), ("GB","GBR"), ("FR","FRA"), ("DE","DEU"), ("NL","NLD"),
   ("BE","BEL"), ("AU","AUS"), ("CN","CHN"), ("IN","IND"), ("BR","BRA"), ("ZA","ZAF"),
   ("SE","SWE"), ("NO","NOR"), ("DK","DNK"), ("FI","FIN"), ("IT","ITA"), ("ES","ESP"),
   ("PT","PRT"), ("CH","CHE"), ("JP","JPN"), ("KR","KOR"), ("IL","ISR"), ("IE","IRL"),
   ("NZ","NZL"), ("MX","MEX"), ("AR","ARG"), ("RU","RUS"), ("TR","TUR"), ("SA","SAU"),
   ("AE","ARE"), ("SG","SGP"), ("HK","HKG"), ("AT","AUT"), ("PL","POL"), ("CZ","CZE"),
   ("HU","HUN"), ("GR","GRC"), ("RO","ROU"), ("TW","TWN"), ("TH","THA"), ("MY","MYS"),
   ("ID","IDN"), ("PK","PAK"), ("BD","BGD"), ("EG","EGY"), ("NG","NGA"), ("KE","KEN"),
   ("IR","IRN"), ("CL","CHL"), ("CO","COL"), ("PE","PER"), ("CU","CUB"), ("KN","KNA"),
   ("GL","GRL")]

/-- `toISO3`: empty stays empty, three-letter codes pass through upper-cased,
two-letter codes go through the table (unknown codes become `''`). -/
def toISO3 (code : String) : String :=
  if code = "" then ""
  else
    let c := upperStr (trimStr code)
    if strLen c = 3 then c else ((ISO2_TO_3.lookup c).getD "")

/-- `splitPipe`: `''` gives `[]`, otherwise split on `'|'` and trim pieces. -/
def splitPipe (v : String) : List String :=
  if v = "" then [] else (splitStr '|' v).map trimStr

/-- The first semicolon-separated cell, trimmed (`firstFromSemicolon`). -/
def firstFromSemicolon (cell : String) : String :=
  if cell = "" then "" else trimStr ((splitStr ';' cell).headD "")

/-! ## Data model -/

/-- A publication row as consumed by the analytics layer (string-typed CSV
fields; double underscores of the CSV headers kept). -/
structure PubRow where
  id : String := ""
  work_id : String := ""
  doi : String := ""
  display_name : String := ""
  authors : String := ""
  concepts_list : String := ""
  primary_topic__display_name : String := ""
  primary_topic__subfield__display_name : String := ""
  cohort_union_author_ids : String := ""
  authorships__countries : String := ""
  authorships__author__id : String := ""
  authorships__author__display_name : String := ""
  authorships__raw_author_name : String := ""
  authorships__is_corresponding : String := ""
  authorships__author_position : String := ""
  authorships__institutions__ror : String := ""
  authorships__institutions__display_name : String := ""
  authorships__institutions__country_code : String := ""
  deriving DecidableEq

/-- A roster row (only the fields the verified components read). -/
structure RosterRow where
  OpenAlexID : String := ""
  Name : String := ""
  Level : String := ""
  deriving DecidableEq

/-- The aligned per-authorship arrays returned by `parseAuthorships`. -/
structure Authorships where
  countries : List String
  ids : List String
  names : List String
  isCorresponding : List Bool
  position : List String
  instRor : List String
  instName : List String
  instCountry3 : List String
  deriving DecidableEq

/-- The `pad` closure of `parseAuthorships`:
`arr.length === n ? arr : Array.from({length:n}, (_,i) => arr[i] ?? fill)`.
Note that `Array.from({length:n}, ...)` both right-pads shorter arrays and
cuts longer arrays down to `n` entries. -/
def padTo {α : Type} (n : Nat) (fill : α) (arr : List α) : List α :=
  if arr.length = n then arr else (List.range n).map (fun i => arr.getD i fill)

theorem padTo_length {α : Type} (n : Nat) (fill : α) (arr : List α) :
    (padTo n fill arr).length = n := by
  unfold padTo
  by_cases h : arr.length = n <;> simp [h]

theorem padTo_getD {α : Type} (n : Nat) (fill : α) (arr : List α) (i : Nat)
    (h : i < n) : (padTo n fill arr).getD i fill = arr.getD i fill := by
  unfold padTo
  by_cases hl : arr.length = n
  · simp [hl]
  · simp [hl, List.getD_eq_getElem?_getD, List.getElem?_map, List.getElem?_range h]

/-! ### `parseAuthorships` (the raw arrays, then padding) -/

def rawCountries (pub : PubRow) : List String :=
  (splitPipe pub.authorships__countries).map toISO3

def rawIds (pub : PubRow) : List String :=
  (splitPipe pub.authorships__author__id).map (stripHttp "openalex.org/authors/")

def rawNames (pub : PubRow) : List String :=
  if (splitPipe pub.authorships__author__display_name).length ≠ 0 then
    splitPipe pub.authorships__author__display_name
  else splitPipe pub.authorships__raw_author_name

def rawIsCorresponding (pub : PubRow) : List Bool :=
  (splitPipe pub.authorships__is_corresponding).map (fun x =>
    let s := lowerStr x
    s == "true" || s == "1" || s == "yes" || s == "y")

def rawPosition (pub : PubRow) : List String :=
  splitPipe pub.authorships__author_position

def rawInstRor (pub : PubRow) : List String :=
  (splitPipe pub.authorships__institutions__ror).map (fun c =>
    stripHttp "ror.org/" (firstFromSemicolon c))

def rawInstName (pub : PubRow) : List String :=
  (splitPipe pub.authorships__institutions__display_name).map firstFromSemicolon

def rawInstCountry3 (pub : PubRow) : List String :=
  ((splitPipe pub.authorships__institutions__country_code).map (fun c =>
    upperStr (firstFromSemicolon c))).map toISO3

/-- `parseAuthorships`: the countries array is the reference; every other
array is brought to its length by `pad`. -/
def parseAuthorships (pub : PubRow) : Authorships :=
  let n := (rawCountries pub).length
  { countries := rawCountries pub
    ids := padTo n "" (rawIds pub)
    names := padTo n "" (rawNames pub)
    isCorresponding := padTo n false (rawIsCorresponding pub)
    position := padTo n "" (rawPosition pub)
    instRor := padTo n "" (rawInstRor pub)
    instName := padTo n "" (rawInstName pub)
    instCountry3 := padTo n "" (rawInstCountry3 pub) }

/-- A publication row whose author-id array is longer than its reference
countries array: two authors but a single affiliation country cell. -/
def pubLongIds : PubRow :=
  { authorships__countries := "US", authorships__author__id := "A1|A2" }

/-- C4 counterexample: the claim says authorship arrays are "never
truncated", but `pad` cuts the author-id array of `pubLongIds` from two
entries down to the one-entry length of the countries array, dropping
`"A2"` entirely. -/
theorem C4_counterexample_truncated :
    "A2" ∈ rawIds pubLongIds ∧ "A2" ∉ (parseAuthorships pubLongIds).ids ∧
      (parseAuthorships pubLongIds).ids.length < (rawIds pubLongIds).length := by
  decide

/-- C4 (amended): for every publication record, all authorship arrays
returned by `parseAuthorships` have the length of the reference countries
array, and each entry below that length agrees with the raw (unpadded)
array, shorter arrays being right-padded with `""`/`false`; arrays longer
than the reference are truncated to its length (rather than never
truncated, as claimed). -/
theorem C4_arrays_share_reference_length (pub : PubRow) :
    ((parseAuthorships pub).ids.length = (parseAuthorships pub).countries.length ∧
     (parseAuthorships pub).names.length = (parseAuthorships pub).countries.length ∧
     (parseAuthorships pub).isCorresponding.length = (parseAuthorships pub).countries.length ∧
     (parseAuthorships pub).position.length = (parseAuthorships pub).countries.length ∧
     (parseAuthorships pub).instRor.length = (parseAuthorships pub).countries.length ∧
     (parseAuthorships pub).instName.length = (parseAuthorships pub).countries.length ∧
     (parseAuthorships pub).instCountry3.length = (parseAuthorships pub).countries.length) ∧
    (∀ i, i < (parseAuthorships pub).countries.length →
      (parseAuthorships pub).ids.getD i "" = (rawIds pub).getD i "" ∧
      (parseAuthorships pub).names.getD i "" = (rawNames pub).getD i "" ∧
      (parseAuthorships pub).isCorresponding.getD i false
        = (rawIsCorresponding pub).getD i false ∧
      (parseAuthorships pub).position.getD i "" = (rawPosition pub).getD i "" ∧
      (parseAuthorships pub).instRor.getD i "" = (rawInstRor pub).getD i "" ∧
      (parseAuthorships pub).instName.getD i "" = (rawInstName pub).getD i "" ∧
      (parseAuthorships pub).instCountry3.getD i "" = (rawInstCountry3 pub).getD i "") := by
  refine ⟨⟨?_, ?_, ?_, ?_, ?_, ?_, ?_⟩, ?_⟩ <;>
    simp only [parseAuthorships, padTo_length]
  intro i hi
  exact ⟨padTo_getD _ _ _ _ hi, padTo_getD _ _ _ _ hi, padTo_getD _ _ _ _ hi,
    padTo_getD _ _ _ _ hi, padTo_getD _ _ _ _ hi, padTo_getD _ _ _ _ hi,
    padTo_getD _ _ _ _ hi⟩

/-- C4 witness: the amended statement evaluated on `pubLongIds` at index 0. -/
theorem C4_witness :
    (0 < (parseAuthorships pubLongIds).countries.length) ∧
      (parseAuthorships pubLongIds).ids.getD 0 "" = (rawIds pubLongIds).getD 0 "" :=
  ⟨by decide, ((C4_arrays_share_reference_length pubLongIds).2 0 (by decide)).1⟩

/-! ## Home-country inference (`computeHomeCountry`) -/

/-- `tallies.set(k, (tallies.get(k) || 0) + 1)` on a JS `Map` modelled as an
insertion-ordered association list: increment in place, or append `(k, 1)`. -/
def bumpCount (t : List (String × Nat)) (k : String) : List (String × Nat) :=
  match t with
  | [] => [(k, 1)]
  | (k0, n0) :: rest => if k0 = k then (k0, n0 + 1) :: rest else (k0, n0) :: bumpCount rest k

/-- The normalized cohort ids built from the contributing roster
(`String(r.OpenAlexID||'').replace(^authors-url, '')`). -/
def cohortIDs (roster : List RosterRow) : List String :=
  roster.map (fun r => cohortKey r.OpenAlexID)

/-- One publication's contribution to the home-country tallies: every
authorship with a non-empty id and country whose id is in the cohort set. -/
def homeTallyPub (cohort : List String) (t : List (String × Nat)) (p : PubRow) :
    List (String × Nat) :=
  let a := parseAuthorships p
  (List.range a.ids.length).foldl (fun t i =>
    let aid := a.ids.getD i ""
    let cty := a.countries.getD i ""
    if aid ≠ "" ∧ cty ≠ "" ∧ aid ∈ cohort then bumpCount t cty else t) t

/-- The country tallies of `computeHomeCountry` over all selected pubs. -/
def homeTallies (roster : List RosterRow) (pubs : List PubRow) : List (String × Nat) :=
  pubs.foldl (homeTallyPub (cohortIDs roster)) []

/-- The selection loop of `computeHomeCountry`:
`best = null, bestN = -1; for ([k,n] of tallies) if (n > bestN) ...`. -/
def bestLoop : List (String × Nat) → Option String × Int → Option String × Int
  | [], acc => acc
  | (k, n) :: rest, (best, bestN) =>
    bestLoop rest (if (n : Int) > bestN then (some k, (n : Int)) else (best, bestN))

/-- `computeHomeCountry`: the most frequent cohort affiliation country, the
fixed fallback `'CAN'` when nothing tallies (`best || 'CAN'`). -/
def computeHomeCountry (roster : List RosterRow) (pubs : List PubRow) : String :=
  let t := homeTallies roster pubs
  if t = [] then "CAN"
  else
    match (bestLoop t (none, -1)).1 with
    | none => "CAN"
    | some b => if b = "" then "CAN" else b

theorem bestLoop_of_all_le (t : List (String × Nat)) (b : Option String) (B : Int)
    (h : ∀ q ∈ t, (q.2 : Int) ≤ B) : bestLoop t (b, B) = (b, B) := by
  induction t with
  | nil => rfl
  | cons q rest ih =>
    obtain ⟨k, n⟩ := q
    have hn : (n : Int) ≤ B := h (k, n) (by simp)
    simp only [bestLoop, if_neg (not_lt.mpr hn)]
    exact ih (fun q hq => h q (by simp [hq]))

theorem bestLoop_argmax (t : List (String × Nat)) (b : Option String) (B : Int)
    (h : ∃ q ∈ t, (q.2 : Int) > B) :
    ∃ (k : String) (m : Nat) (pre post : List (String × Nat)),
      t = pre ++ (k, m) :: post ∧
      bestLoop t (b, B) = (some k, (m : Int)) ∧ (m : Int) > B ∧
      (∀ q ∈ pre, q.2 < m) ∧ (∀ q ∈ post, q.2 ≤ m) := by
  induction t generalizing b B with
  | nil => simp at h
  | cons q rest ih =>
    obtain ⟨k, n⟩ := q
    by_cases hn : (n : Int) > B
    · simp only [bestLoop, if_pos hn]
      by_cases hrest : ∃ q ∈ rest, (q.2 : Int) > (n : Int)
      · obtain ⟨k', m, pre, post, hsplit, hloop, hm, hpre, hpost⟩ := ih (some k) (n : Int) hrest
        refine ⟨k', m, (k, n) :: pre, post, by rw [hsplit]; rfl, hloop,
          lt_trans hn hm, ?_, hpost⟩
        intro q hq
        rcases List.mem_cons.mp hq with rfl | hq
        · exact_mod_cast hm
        · exact hpre q hq
      · push_neg at hrest
        refine ⟨k, n, [], rest, rfl, ?_, hn, ?_, ?_⟩
        · exact bestLoop_of_all_le rest (some k) (n : Int) hrest
        · intro q hq
          exact absurd hq (List.not_mem_nil q)
        · intro q hq
          exact_mod_cast hrest q hq
    · have hrest : ∃ q ∈ rest, (q.2 : Int) > B := by
        obtain ⟨q, hq, hgt⟩ := h
        rcases List.mem_cons.mp hq with rfl | hq
        · exact absurd hgt hn
        · exact ⟨q, hq, hgt⟩
      simp only [bestLoop, if_neg hn]
      obtain ⟨k', m, pre, post, hsplit, hloop, hm, hpre, hpost⟩ := ih b B hrest
      refine ⟨k', m, (k, n) :: pre, post, by rw [hsplit]; rfl, hloop, hm, ?_, hpost⟩
      intro q hq
      rcases List.mem_cons.mp hq with rfl | hq
      · exact_mod_cast lt_of_le_of_lt (not_lt.mp hn) hm
      · exact hpre q hq

theorem bumpCount_keys (t : List (String × Nat)) (k : String) (q : String × Nat)
    (h : q ∈ bumpCount t k) : q.1 = k ∨ q.1 ∈ t.map Prod.fst := by
  induction t with
  | nil => simp [bumpCount] at h; simp [h]
  | cons q0 rest ih =>
    obtain ⟨k0, n0⟩ := q0
    by_cases hk : k0 = k
    · simp only [bumpCount, if_pos hk] at h
      rcases List.mem_cons.mp h with rfl | h
      · exact Or.inl hk
      · refine Or.inr ?_
        rw [List.map_cons]
        exact List.mem_cons_of_mem _ (List.mem_map_of_mem Prod.fst h)
    · simp only [bumpCount, if_neg hk] at h
      rcases List.mem_cons.mp h with rfl | h
      · refine Or.inr ?_
        rw [List.map_cons]
        exact List.mem_cons_self _ _
      · rcases ih h with h' | h'
        · exact Or.inl h'
        · refine Or.inr ?_
          rw [List.map_cons]
          exact List.mem_cons_of_mem _ h'

/-- Every key ever put into the home tallies is a non-empty country code. -/
theorem homeTallies_keys_ne_empty (roster : List RosterRow) (pubs : List PubRow) :
    ∀ q ∈ homeTallies roster pubs, q.1 ≠ "" := by
  unfold homeTallies
  refine foldl_inv (fun t : List (String × Nat) => ∀ q ∈ t, q.1 ≠ "") _ pubs []
    (by simp) ?_
  intro t p ht _
  unfold homeTallyPub
  refine foldl_inv (fun t : List (String × Nat) => ∀ q ∈ t, q.1 ≠ "") _ _ t ht ?_
  intro t' i ht' _
  dsimp only
  by_cases hc : (parseAuthorships p).ids.getD i "" ≠ "" ∧
      (parseAuthorships p).countries.getD i "" ≠ "" ∧
      (parseAuthorships p).ids.getD i "" ∈ cohortIDs roster
  · rw [if_pos hc]
    intro q hq
    rcases bumpCount_keys t' _ q hq with h | h
    · rw [h]; exact hc.2.1
    · obtain ⟨q', hq', hfst⟩ := List.mem_map.mp h
      rw [← hfst]
      exact ht' q' hq'
  · rwa [if_neg hc]

/-- C3: `computeHomeCountry` tallies the affiliation country of every
cohort authorship across the selected publications and returns the country
with the strictly highest tally, ties resolved in favour of the country
first seen during tallying; with no tallies it returns the fixed fallback
`"CAN"`. -/
theorem C3_computeHomeCountry_argmax (roster : List RosterRow) (pubs : List PubRow) :
    (homeTallies roster pubs = [] → computeHomeCountry roster pubs = "CAN") ∧
    (homeTallies roster pubs ≠ [] →
      ∃ (m : Nat) (pre post : List (String × Nat)),
        homeTallies roster pubs = pre ++ (computeHomeCountry roster pubs, m) :: post ∧
        (∀ q ∈ pre, q.2 < m) ∧ (∀ q ∈ post, q.2 ≤ m)) := by
  constructor
  · intro h
    unfold computeHomeCountry
    rw [if_pos h]
  · intro h
    obtain ⟨q0, hq0⟩ := List.exists_mem_of_ne_nil _ h
    have hex : ∃ q ∈ homeTallies roster pubs, (q.2 : Int) > -1 :=
      ⟨q0, hq0, lt_of_lt_of_le (by norm_num) (Int.natCast_nonneg q0.2)⟩
    obtain ⟨k, m, pre, post, hsplit, hloop, _, hpre, hpost⟩ :=
      bestLoop_argmax (homeTallies roster pubs) none (-1) hex
    have hkne : k ≠ "" := by
      have : (k, m) ∈ homeTallies roster pubs := by rw [hsplit]; simp
      exact homeTallies_keys_ne_empty roster pubs (k, m) this
    have hres : computeHomeCountry roster pubs = k := by
      unfold computeHomeCountry
      rw [if_neg h, hloop]
      simp [hkne]
    exact ⟨m, pre, post, by rw [hres]; exact hsplit, hpre, hpost⟩

/-- A one-researcher roster and a single publication carrying four cohort
authorships: three in the US, one in the UK. -/
def rosterA1 : List RosterRow := [{ OpenAlexID := "A1" }]

def pubUSA3GBR1 : PubRow :=
  { authorships__countries := "US|US|GB|US",
    authorships__author__id := "A1|A1|A1|A1" }

/-- C3 witness: on the 3×USA / 1×GBR scenario the theorem applies and the
inferred home country is `"USA"`. -/
theorem C3_witness :
    homeTallies rosterA1 [pubUSA3GBR1] ≠ [] ∧
      computeHomeCountry rosterA1 [pubUSA3GBR1] = "USA" ∧
      (∃ (m : Nat) (pre post : List (String × Nat)),
        homeTallies rosterA1 [pubUSA3GBR1] =
          pre ++ (computeHomeCountry rosterA1 [pubUSA3GBR1], m) :: post ∧
        (∀ q ∈ pre, q.2 < m) ∧ (∀ q ∈ post, q.2 ≤ m)) :=
  ⟨by decide, by decide,
    (C3_computeHomeCountry_argmax rosterA1 [pubUSA3GBR1]).2 (by decide)⟩

/-! ## International collaboration classifier (`computeIntlLinks`) -/

/-- The lower-cased position string of authorship `i`
(`String(a.position[i]||'').toLowerCase()`). -/
def posAt (p : PubRow) (i : Nat) : String :=
  lowerStr ((parseAuthorships p).position.getD i "")

/-- `pos === 'first' || pos === 'last'`. -/
def isFLPos (s : String) : Prop := s = "first" ∨ s = "last"

instance (s : String) : Decidable (isFLPos s) := by unfold isFLPos; infer_instance

/-- `isCohort`: non-empty id that belongs to the cohort id set. -/
def cohortAt (cohort : List String) (p : PubRow) (i : Nat) : Prop :=
  (parseAuthorships p).ids.getD i "" ≠ "" ∧ (parseAuthorships p).ids.getD i "" ∈ cohort

instance (cohort : List String) (p : PubRow) (i : Nat) : Decidable (cohortAt cohort p i) := by
  unfold cohortAt; infer_instance

/-- `isIntl`: non-empty affiliation country, a non-empty home country, and
the two differ. -/
def intlAt (home : String) (p : PubRow) (i : Nat) : Prop :=
  (parseAuthorships p).countries.getD i "" ≠ "" ∧ home ≠ "" ∧
    (parseAuthorships p).countries.getD i "" ≠ home

instance (home : String) (p : PubRow) (i : Nat) : Decidable (intlAt home p i) := by
  unfold intlAt; infer_instance

/-- The crediting inner loop: add the (non-empty) country of every index in
`idxs` to the per-paper credited set. -/
def addCtys (p : PubRow) (idxs : List Nat) (s : List String) : List String :=
  idxs.foldl (fun s j =>
    let iso := (parseAuthorships p).countries.getD j ""
    if iso ≠ "" then insertNew s iso else s) s

theorem mem_addCtys_iff (p : PubRow) (idxs : List Nat) (s : List String) (y : String) :
    y ∈ addCtys p idxs s ↔
      y ∈ s ∨ (∃ j ∈ idxs, (parseAuthorships p).countries.getD j "" = y ∧ y ≠ "") := by
  induction idxs generalizing s with
  | nil => simp [addCtys]
  | cons j rest ih =>
    simp only [addCtys, List.foldl_cons] at ih ⊢
    rw [ih]
    by_cases hj : (parseAuthorships p).countries.getD j "" ≠ ""
    · rw [if_pos hj, mem_insertNew_iff]
      constructor
      · rintro ((hy | rfl) | ⟨j', hj', hy⟩)
        · exact Or.inl hy
        · exact Or.inr ⟨j, by simp, rfl, hj⟩
        · exact Or.inr ⟨j', by simp [hj'], hy⟩
      · rintro (hy | ⟨j', hj', hy, hne⟩)
        · exact Or.inl (Or.inl hy)
        · rcases List.mem_cons.mp hj' with rfl | hj'
          · exact Or.inl (Or.inr hy.symm)
          · exact Or.inr ⟨j', hj', hy, hne⟩
    · rw [if_neg hj]
      push_neg at hj
      constructor
      · rintro (hy | ⟨j', hj', hy⟩)
        · exact Or.inl hy
        · exact Or.inr ⟨j', by simp [hj'], hy⟩
      · rintro (hy | ⟨j', hj', hy, hne⟩)
        · exact Or.inl hy
        · rcases List.mem_cons.mp hj' with rfl | hj'
          · exact absurd (hj ▸ hy.symm) hne
          · exact Or.inr ⟨j', hj', hy, hne⟩

theorem nodup_addCtys (p : PubRow) (idxs : List Nat) (s : List String)
    (h : s.Nodup) : (addCtys p idxs s).Nodup := by
  induction idxs generalizing s with
  | nil => exact h
  | cons j rest ih =>
    simp only [addCtys, List.foldl_cons]
    by_cases hj : (parseAuthorships p).countries.getD j "" ≠ ""
    · rw [if_pos hj]
      exact ih _ (nodup_insertNew _ h)
    · rw [if_neg hj]
      exact ih _ h

/-- `creditedThisPaper` of `computeIntlLinks`: the per-paper set of credited
countries, built by Rule 1 (cohort FL × any international) then Rule 2
(cohort M × international FL). -/
def creditedCountries (cohort : List String) (home : String) (p : PubRow) : List String :=
  let n := (parseAuthorships p).ids.length
  if n = 0 then []
  else
    let cohortFL := (List.range n).filter
      (fun i => decide (cohortAt cohort p i ∧ isFLPos (posAt p i)))
    let cohortM := (List.range n).filter
      (fun i => decide (¬(cohortAt cohort p i ∧ isFLPos (posAt p i)) ∧
        cohortAt cohort p i ∧ posAt p i = "middle"))
    let intlAny := (List.range n).filter (fun i => decide (intlAt home p i))
    let intlFL := (List.range n).filter
      (fun i => decide (intlAt home p i ∧ isFLPos (posAt p i)))
    let s1 := if cohortFL ≠ [] ∧ intlAny ≠ [] then addCtys p intlAny [] else []
    if cohortM ≠ [] ∧ intlFL ≠ [] then addCtys p intlFL s1 else s1

/-- The aggregated per-country paper counts (`counts` map). -/
def intlCounts (pubs : List PubRow) (roster : List RosterRow) (home : String) :
    List (String × Nat) :=
  pubs.foldl (fun t p => (creditedCountries (cohortIDs roster) home p).foldl bumpCount t) []

structure IntlLinks where
  iso3 : List String
  values : List Nat
  total : Nat
  deriving DecidableEq

/-- `computeIntlLinks`: per-paper credited sets tallied into a country map,
emitted as a sorted country list with aligned counts and their total. -/
def computeIntlLinks (pubs : List PubRow) (roster : List RosterRow) (home : String) :
    IntlLinks :=
  let counts := intlCounts pubs roster home
  let keys := sortBy strLeJS (counts.map Prod.fst)
  let values := keys.map (fun k => (counts.lookup k).getD 0)
  { iso3 := keys, values := values, total := values.foldl (· + ·) 0 }

/-- C1: on a publication with a cohort author in first or last position and
at least one international authorship, Rule 1 credits the publication with
the country of every international authorship (any position), and the
per-paper credited set is duplicate-free, so each country is credited at
most once per publication. -/
theorem C1_rule1_credits_every_international (roster : List RosterRow) (home : String)
    (p : PubRow)
    (hFL : ∃ i, i < (parseAuthorships p).ids.length ∧
      cohortAt (cohortIDs roster) p i ∧ isFLPos (posAt p i))
    (hIntl : ∃ j, j < (parseAuthorships p).ids.length ∧ intlAt home p j) :
    (∀ i, i < (parseAuthorships p).ids.length → intlAt home p i →
      (parseAuthorships p).countries.getD i "" ∈
        creditedCountries (cohortIDs roster) home p) ∧
    (creditedCountries (cohortIDs roster) home p).Nodup := by
  obtain ⟨i0, hi0, hco0⟩ := hFL
  obtain ⟨j0, hj0, hintl0⟩ := hIntl
  have hn : ¬((parseAuthorships p).ids.length = 0) := by omega
  unfold creditedCountries
  rw [if_neg hn]
  simp only []
  set n := (parseAuthorships p).ids.length with hnn
  set cohortFL := (List.range n).filter
    (fun i => decide (cohortAt (cohortIDs roster) p i ∧ isFLPos (posAt p i))) with hcfl
  set cohortM := (List.range n).filter
    (fun i => decide (¬(cohortAt (cohortIDs roster) p i ∧ isFLPos (posAt p i)) ∧
      cohortAt (cohortIDs roster) p i ∧ posAt p i = "middle")) with hcm
  set intlAny := (List.range n).filter (fun i => decide (intlAt home p i)) with hia
  set intlFL := (List.range n).filter
    (fun i => decide (intlAt home p i ∧ isFLPos (posAt p i))) with hifl
  have hflne : cohortFL ≠ [] := by
    refine List.ne_nil_of_mem (a := i0) ?_
    rw [hcfl]
    exact List.mem_filter.mpr ⟨List.mem_range.mpr hi0, by simpa using hco0⟩
  have hiane : intlAny ≠ [] := by
    refine List.ne_nil_of_mem (a := j0) ?_
    rw [hia]
    exact List.mem_filter.mpr ⟨List.mem_range.mpr hj0, by simpa using hintl0⟩
  rw [if_pos (show cohortFL ≠ [] ∧ intlAny ≠ [] from ⟨hflne, hiane⟩)]
  have hs1mem : ∀ i, i < n → intlAt home p i →
      (parseAuthorships p).countries.getD i "" ∈ addCtys p intlAny [] := by
    intro i hi hintl
    refine (mem_addCtys_iff p intlAny [] _).mpr (Or.inr ⟨i, ?_, rfl, hintl.1⟩)
    rw [hia]
    exact List.mem_filter.mpr ⟨List.mem_range.mpr hi, by simpa using hintl⟩
  have hs1nd : (addCtys p intlAny []).Nodup := nodup_addCtys p intlAny [] (by simp)
  by_cases hM : cohortM ≠ [] ∧ intlFL ≠ []
  · rw [if_pos hM]
    refine ⟨fun i hi hintl => ?_, nodup_addCtys p intlFL _ hs1nd⟩
    exact (mem_addCtys_iff p intlFL _ _).mpr (Or.inl (hs1mem i hi hintl))
  · rw [if_neg hM]
    exact ⟨hs1mem, hs1nd⟩

/-- The first-position cohort author is at home in the US, the middle
coauthor is affiliated with France. -/
def pubFRA : PubRow :=
  { authorships__countries := "US|FR",
    authorships__author__id := "A1|X9",
    authorships__author_position := "first|middle" }

/-- C1 witness: the FRA scenario — Rule 1 credits `"FRA"` although the
French coauthor sits in the middle of the author list. -/
theorem C1_witness :
    (parseAuthorships pubFRA).countries.getD 1 "" = "FRA" ∧
      "FRA" ∈ creditedCountries (cohortIDs rosterA1) "USA" pubFRA := by
  refine ⟨by decide, ?_⟩
  have h := (C1_rule1_credits_every_international rosterA1 "USA" pubFRA
    ⟨0, by decide, by decide⟩ ⟨1, by decide, by decide⟩).1 1 (by decide) (by decide)
  rwa [show (parseAuthorships pubFRA).countries.getD 1 "" = "FRA" by decide] at h

/-- The distinct international countries among a publication's authorships:
the measuring list for C2 (its `toFinset` is the set of distinct non-home,
non-empty affiliation countries). -/
def intlCountriesOf (home : String) (p : PubRow) : List String :=
  ((List.range (parseAuthorships p).ids.length).filter
    (fun i => decide (intlAt home p i))).map
    (fun i => (parseAuthorships p).countries.getD i "")

/-- C2: per publication, the number of distinct countries credited by the
union of Rule 1 and Rule 2 never exceeds the number of distinct
international (non-home) countries among its authorships. -/
theorem C2_credited_le_distinct_international (roster : List RosterRow) (home : String)
    (p : PubRow) :
    (creditedCountries (cohortIDs roster) home p).toFinset.card ≤
      (intlCountriesOf home p).toFinset.card := by
  refine Finset.card_le_card ?_
  intro y hy
  rw [List.mem_toFinset] at hy
  rw [List.mem_toFinset]
  have hsrc : ∃ j, j < (parseAuthorships p).ids.length ∧ intlAt home p j ∧
      (parseAuthorships p).countries.getD j "" = y := by
    unfold creditedCountries at hy
    by_cases hn : (parseAuthorships p).ids.length = 0
    · rw [if_pos hn] at hy
      simp at hy
    · rw [if_neg hn] at hy
      simp only [] at hy
      have hy2 : y ∈ (if ((List.range (parseAuthorships p).ids.length).filter
            (fun i => decide (cohortAt (cohortIDs roster) p i ∧ isFLPos (posAt p i))) ≠ [] ∧
            (List.range (parseAuthorships p).ids.length).filter
              (fun i => decide (intlAt home p i)) ≠ [])
          then addCtys p ((List.range (parseAuthorships p).ids.length).filter
            (fun i => decide (intlAt home p i))) [] else []) ∨
          (∃ j ∈ (List.range (parseAuthorships p).ids.length).filter
            (fun i => decide (intlAt home p i ∧ isFLPos (posAt p i))),
            (parseAuthorships p).countries.getD j "" = y ∧ y ≠ "") := by
        by_cases hM : ((List.range (parseAuthorships p).ids.length).filter
            (fun i => decide (¬(cohortAt (cohortIDs roster) p i ∧ isFLPos (posAt p i)) ∧
              cohortAt (cohortIDs roster) p i ∧ posAt p i = "middle")) ≠ [] ∧
            (List.range (parseAuthorships p).ids.length).filter
              (fun i => decide (intlAt home p i ∧ isFLPos (posAt p i))) ≠ [])
        · rw [if_pos hM] at hy
          exact (mem_addCtys_iff p _ _ y).mp hy
        · rw [if_neg hM] at hy
          exact Or.inl hy
      rcases hy2 with hy2 | ⟨j, hj, hcty, _⟩
      · by_cases hR1 : ((List.range (parseAuthorships p).ids.length).filter
            (fun i => decide (cohortAt (cohortIDs roster) p i ∧ isFLPos (posAt p i))) ≠ [] ∧
            (List.range (parseAuthorships p).ids.length).filter
              (fun i => decide (intlAt home p i)) ≠ [])
        · rw [if_pos hR1] at hy2
          rcases (mem_addCtys_iff p _ _ y).mp hy2 with h | ⟨j, hj, hcty, _⟩
          · simp at h
          · obtain ⟨hjr, hjd⟩ := List.mem_filter.mp hj
            exact ⟨j, List.mem_range.mp hjr, by simpa using hjd, hcty⟩
        · rw [if_neg hR1] at hy2
          simp at hy2
      · obtain ⟨hjr, hjd⟩ := List.mem_filter.mp hj
        have hjd' : intlAt home p j ∧ isFLPos (posAt p j) := by simpa using hjd
        exact ⟨j, List.mem_range.mp hjr, hjd'.1, hcty⟩
  obtain ⟨j, hj, hintl, hcty⟩ := hsrc
  unfold intlCountriesOf
  refine List.mem_map.mpr ⟨j, ?_, hcty⟩
  exact List.mem_filter.mpr ⟨List.mem_range.mpr hj, by simpa using hintl⟩

/-! ## Jaccard distance (`jaccardDistance`) -/

/-- `jaccardDistance(A, B)`: `0` when both sets are empty, otherwise
`1 - |A∩B| / (|A|+|B|-|A∩B|)`, with a defensive `1` when the union count is
zero (unreachable after the first test). The intersection loop
`for (x of A) if (B.has(x)) inter++` counts `|A ∩ B|`. -/
def jaccardDistance {α : Type} [DecidableEq α] (A B : Finset α) : ℚ :=
  if A.card = 0 ∧ B.card = 0 then 0
  else
    let inter := (A ∩ B).card
    let union := A.card + B.card - inter
    if union ≠ 0 then 1 - (inter : ℚ) / (union : ℚ) else 1

/-- C6: `jaccardDistance` is symmetric, lands in `[0, 1]`, vanishes on
identical sets, and is `0` on two empty sets. -/
theorem C6_jaccard_symm_bounded_refl {α : Type} [DecidableEq α] (A B : Finset α) :
    jaccardDistance A B = jaccardDistance B A ∧
    0 ≤ jaccardDistance A B ∧ jaccardDistance A B ≤ 1 ∧
    jaccardDistance A A = 0 ∧ jaccardDistance (∅ : Finset α) ∅ = 0 := by
  have hIA : (A ∩ B).card ≤ A.card := Finset.card_le_card Finset.inter_subset_left
  have hIB : (A ∩ B).card ≤ B.card := Finset.card_le_card Finset.inter_subset_right
  have hsymm : jaccardDistance A B = jaccardDistance B A := by
    unfold jaccardDistance
    by_cases h : A.card = 0 ∧ B.card = 0
    · have hBA : B.card = 0 ∧ A.card = 0 := ⟨h.2, h.1⟩
      rw [if_pos h, if_pos hBA]
    · have hBA : ¬(B.card = 0 ∧ A.card = 0) := fun h' => h ⟨h'.2, h'.1⟩
      rw [if_neg h, if_neg hBA, Finset.inter_comm B A, add_comm B.card A.card]
  have hbounds : 0 ≤ jaccardDistance A B ∧ jaccardDistance A B ≤ 1 := by
    unfold jaccardDistance
    by_cases h : A.card = 0 ∧ B.card = 0
    · rw [if_pos h]
      norm_num
    · rw [if_neg h]
      simp only []
      by_cases hu : A.card + B.card - (A ∩ B).card ≠ 0
      · rw [if_pos hu]
        have hle : (A ∩ B).card ≤ A.card + B.card - (A ∩ B).card := by omega
        have hupos : (0 : ℚ) < (A.card + B.card - (A ∩ B).card : ℕ) := by
          exact_mod_cast Nat.pos_of_ne_zero hu
        have hdiv1 : ((A ∩ B).card : ℚ) / ((A.card + B.card - (A ∩ B).card : ℕ) : ℚ) ≤ 1 := by
          rw [div_le_one hupos]
          exact_mod_cast hle
        have hdiv0 : 0 ≤ ((A ∩ B).card : ℚ) / ((A.card + B.card - (A ∩ B).card : ℕ) : ℚ) :=
          div_nonneg (by positivity) (le_of_lt hupos)
        constructor <;> linarith
      · rw [if_neg hu]
        norm_num
  have hrefl : jaccardDistance A A = 0 := by
    unfold jaccardDistance
    by_cases h : A.card = 0
    · rw [if_pos ⟨h, h⟩]
    · rw [if_neg (fun h' => h h'.1)]
      simp only [Finset.inter_self]
      have hu : A.card + A.card - A.card ≠ 0 := by omega
      rw [if_pos hu]
      have : A.card + A.card - A.card = A.card := by omega
      rw [this, div_self (by exact_mod_cast h)]
      norm_num
  have hemp : jaccardDistance (∅ : Finset α) ∅ = 0 := by
    unfold jaccardDistance
    rw [if_pos ⟨Finset.card_empty, Finset.card_empty⟩]
  exact ⟨hsymm, hbounds.1, hbounds.2, hrefl, hemp⟩

/-! ## Partner-institution aggregator (`drawTopRORPartners`) -/

/-- A partner tally record: running metadata plus the credit count. -/
structure PartnerRec where
  name : String
  country : String
  n : Nat
  deriving DecidableEq

/-- `creditedThisCohort`: for one publication, union over every cohort
author of the first-institution RORs of all of their coauthors, skipping
empty RORs, the cohort author's own ROR and the inferred home ROR. -/
def creditedPartnerRORs (cohort : List String) (homeROR : String) (p : PubRow) :
    List String :=
  let a := parseAuthorships p
  let nn := a.ids.length
  (List.range nn).foldl (fun s i =>
    if a.ids.getD i "" ∈ cohort then
      let ownRor := trimStr (a.instRor.getD i "")
      (List.range nn).foldl (fun s2 j =>
        if j = i then s2
        else
          let ror := trimStr (a.instRor.getD j "")
          if ror = "" then s2
          else if ownRor ≠ "" ∧ ror = ownRor then s2
          else if homeROR ≠ "" ∧ ror = homeROR then s2
          else insertNew s2 ror) s
    else s) []

theorem nodup_creditedPartnerRORs (cohort : List String) (homeROR : String) (p : PubRow) :
    (creditedPartnerRORs cohort homeROR p).Nodup := by
  unfold creditedPartnerRORs
  refine foldl_inv (fun s : List String => s.Nodup) _ _ [] (by simp) ?_
  intro s i hs _
  dsimp only
  by_cases hc : (parseAuthorships p).ids.getD i "" ∈ cohort
  · rw [if_pos hc]
    refine foldl_inv (fun s : List String => s.Nodup) _ _ s hs ?_
    intro s2 j hs2 _
    dsimp only
    by_cases hj : j = i
    · rwa [if_pos hj]
    · rw [if_neg hj]
      by_cases h0 : trimStr ((parseAuthorships p).instRor.getD j "") = ""
      · rwa [if_pos h0]
      · rw [if_neg h0]
        by_cases h1 : trimStr ((parseAuthorships p).instRor.getD i "") ≠ "" ∧
            trimStr ((parseAuthorships p).instRor.getD j "") =
              trimStr ((parseAuthorships p).instRor.getD i "")
        · rwa [if_pos h1]
        · rw [if_neg h1]
          by_cases h2 : homeROR ≠ "" ∧
              trimStr ((parseAuthorships p).instRor.getD j "") = homeROR
          · rwa [if_pos h2]
          · rw [if_neg h2]
            exact nodup_insertNew _ hs2
  · rwa [if_neg hc]

/-- The record update of the tally loop: backfill empty metadata
(`if (!rec.name && name) ...`, `if (!rec.country && country) ...` — the two
sequential field mutations touch disjoint fields), then `rec.n += 1`. -/
def updRec (rec : PartnerRec) (name country : String) : PartnerRec :=
  { name := if rec.name = "" ∧ name ≠ "" then name else rec.name,
    country := if rec.country = "" ∧ country ≠ "" then country else rec.country,
    n := rec.n + 1 }

/-- `tally.set(ror, rec)` with `rec = tally.get(ror) || {name: name || ror,
country, n: 0}` followed by the metadata backfills and `rec.n += 1`. -/
def partnerBump (t : List (String × PartnerRec)) (ror name country : String) :
    List (String × PartnerRec) :=
  match t with
  | [] => [(ror, updRec { name := if name = "" then ror else name,
                          country := country, n := 0 } name country)]
  | (k, rec) :: rest =>
    if k = ror then (k, updRec rec name country) :: rest
    else (k, rec) :: partnerBump rest ror name country

/-- The credit count a tally holds for a given ROR. -/
def partnerCount (t : List (String × PartnerRec)) (ror : String) : Nat :=
  match t.lookup ror with
  | some rec => rec.n
  | none => 0

/-- One crediting of `ror` for the current publication: look up the
metadata by `findIndex` over the (untrimmed) ROR array, then bump. -/
def partnerBumpFor (p : PubRow) (t : List (String × PartnerRec)) (ror : String) :
    List (String × PartnerRec) :=
  let a := parseAuthorships p
  let idx := a.instRor.findIdx? (fun x => x == ror)
  let name := match idx with
    | some i => a.instName.getD i ""
    | none => ""
  let country := match idx with
    | some i => a.instCountry3.getD i ""
    | none => ""
  partnerBump t ror name country

/-- One publication's update of the partner tally: every ROR in the
per-paper credited set gains one credit. -/
def partnerTallyStep (cohort : List String) (homeROR : String)
    (t : List (String × PartnerRec)) (p : PubRow) : List (String × PartnerRec) :=
  let a := parseAuthorships p
  if a.ids.length = 0 then t
  else
    let credited := creditedPartnerRORs cohort homeROR p
    if credited = [] then t
    else credited.foldl (partnerBumpFor p) t

theorem updRec_n (rec : PartnerRec) (name country : String) :
    (updRec rec name country).n = rec.n + 1 := rfl

theorem partnerBump_count_self (t : List (String × PartnerRec)) (ror name country : String) :
    partnerCount (partnerBump t ror name country) ror = partnerCount t ror + 1 := by
  induction t with
  | nil => simp [partnerBump, partnerCount, List.lookup, updRec_n]
  | cons q rest ih =>
    obtain ⟨k, rec⟩ := q
    by_cases hk : k = ror
    · subst hk
      simp [partnerBump, partnerCount, List.lookup, updRec_n]
    · have hbne : (ror == k) = false := by
        simp [beq_eq_false_iff_ne]
        exact fun h => hk h.symm
      simp only [partnerBump, if_neg hk, partnerCount, List.lookup, hbne]
      exact ih

theorem partnerBump_count_other (t : List (String × PartnerRec)) (ror name country r : String)
    (h : r ≠ ror) : partnerCount (partnerBump t ror name country) r = partnerCount t r := by
  induction t with
  | nil => simp [partnerBump, partnerCount, List.lookup, beq_eq_false_iff_ne.mpr h]
  | cons q rest ih =>
    obtain ⟨k, rec⟩ := q
    by_cases hk : k = ror
    · subst hk
      simp [partnerBump, partnerCount, List.lookup, beq_eq_false_iff_ne.mpr h]
    · by_cases hrk : r = k
      · subst hrk
        simp [partnerBump, if_neg hk, partnerCount, List.lookup]
      · simp only [partnerBump, if_neg hk, partnerCount, List.lookup,
          beq_eq_false_iff_ne.mpr hrk]
        exact ih

theorem partnerBumpFor_count_self (p : PubRow) (t : List (String × PartnerRec))
    (ror : String) : partnerCount (partnerBumpFor p t ror) ror = partnerCount t ror + 1 :=
  partnerBump_count_self t ror _ _

theorem partnerBumpFor_count_other (p : PubRow) (t : List (String × PartnerRec))
    (ror r : String) (h : r ≠ ror) :
    partnerCount (partnerBumpFor p t ror) r = partnerCount t r :=
  partnerBump_count_other t ror _ _ r h

theorem partnerFold_count_not_mem (p : PubRow) (L : List String)
    (t : List (String × PartnerRec)) (r : String) (hr : r ∉ L) :
    partnerCount (L.foldl (partnerBumpFor p) t) r = partnerCount t r := by
  induction L generalizing t with
  | nil => rfl
  | cons x L ih =>
    have hrx : r ≠ x := fun h => hr (h ▸ List.mem_cons_self x L)
    have hrL : r ∉ L := fun h => hr (List.mem_cons_of_mem x h)
    simp only [List.foldl_cons]
    rw [ih _ hrL, partnerBumpFor_count_other p t x r hrx]

/-- C8: a single publication increases the credit count of each partner
institution identifier by at most one, no matter how many cohort authors
on the publication independently reached that institution — the per-paper
credited set is a duplicate-free union across cohort authors. -/
theorem C8_one_credit_per_pub (cohort : List String) (homeROR : String)
    (t : List (String × PartnerRec)) (p : PubRow) (ror : String) :
    partnerCount (partnerTallyStep cohort homeROR t p) ror ≤ partnerCount t ror + 1 := by
  unfold partnerTallyStep
  by_cases h0 : (parseAuthorships p).ids.length = 0
  · rw [if_pos h0]
    omega
  · rw [if_neg h0]
    simp only []
    by_cases hc : creditedPartnerRORs cohort homeROR p = []
    · rw [if_pos hc]
      omega
    · rw [if_neg hc]
      have hnd := nodup_creditedPartnerRORs cohort homeROR p
      -- fold over the duplicate-free credited list bumps `ror` at most once
      generalize hL : creditedPartnerRORs cohort homeROR p = L at hnd ⊢
      clear hc hL
      induction L generalizing t with
      | nil => simp
      | cons x L ih =>
        simp only [List.foldl_cons]
        by_cases hrx : ror = x
        · subst hrx
          have hnotin : ror ∉ L := (List.nodup_cons.mp hnd).1
          rw [partnerFold_count_not_mem p L _ ror hnotin,
            partnerBumpFor_count_self]
        · have h := ih (partnerBumpFor p t x) (List.nodup_cons.mp hnd).2
          rwa [partnerBumpFor_count_other p t x ror hrx] at h

/-- One publication's contribution to the home-ROR tallies of
`drawTopRORPartners` (cohort authorships with a non-empty id and ROR). -/
def homeRORTallyPub (cohort : List String) (t : List (String × Nat)) (p : PubRow) :
    List (String × Nat) :=
  let a := parseAuthorships p
  (List.range a.ids.length).foldl (fun t i =>
    let id := a.ids.getD i ""
    let ror := trimStr (a.instRor.getD i "")
    if id ≠ "" ∧ ror ≠ "" ∧ id ∈ cohort then bumpCount t ror else t) t

/-- The home-ROR pick: `let homeROR=''; let bestN=0; if (n > bestN) ...`. -/
def homeRORPick (t : List (String × Nat)) : String :=
  (t.foldl (fun (acc : String × Nat) q => if q.2 > acc.2 then (q.1, q.2) else acc) ("", 0)).1

/-- A row of the partner ranking. -/
structure PartnerRow where
  ror : String
  name : String
  country : String
  n : Nat
  deriving DecidableEq

/-- The output rows: drop the home ROR again as a safety net, materialize
`{ror, name: rec.name || ror, country: rec.country || '', n}`, sort by
credit count descending and keep the top 12 (`slice(0, 12)`). -/
def partnerRows (homeROR : String) (tally : List (String × PartnerRec)) :
    List PartnerRow :=
  (sortBy (fun a b => decide (b.n ≤ a.n))
    ((tally.filter (fun q => decide (homeROR = "" ∨ q.1 ≠ homeROR))).map
      (fun q => ({ ror := q.1,
                   name := if q.2.name = "" then q.1 else q.2.name,
                   country := q.2.country,
                   n := q.2.n } : PartnerRow)))).take 12

/-- The full partner-institution aggregation of `drawTopRORPartners`
(without the DOM rendering): empty cohort draws nothing, otherwise infer
the home ROR, tally the per-paper credited sets and emit ranked rows. -/
def topPartnerRows (roster : List RosterRow) (pubs : List PubRow) : List PartnerRow :=
  let cohort := cohortIDs roster
  if cohort = [] then []
  else
    let homeROR := homeRORPick (pubs.foldl (homeRORTallyPub cohort) [])
    let tally := pubs.foldl (partnerTallyStep cohort homeROR) []
    partnerRows homeROR tally

/-- C10: the partner-institution ranking produced for output never contains
more than 12 entries — the list is truncated to the top 12 after the
home-institution filter and the descending sort. -/
theorem C10_partner_ranking_at_most_12 (roster : List RosterRow) (pubs : List PubRow) :
    (topPartnerRows roster pubs).length ≤ 12 := by
  unfold topPartnerRows
  by_cases h : cohortIDs roster = []
  · rw [if_pos h]
    simp
  · rw [if_neg h]
    unfold partnerRows
    exact List.length_take_le 12 _

/-! ## Classical MDS (`classicalMDS2D`)

The numeric code is modelled over `ℝ`; the `Math.random()` entries of the
power-iteration start vectors are parameters (`seed1`, `seed2`). -/

/-- `norm(x) = Math.sqrt(x.reduce((a,b)=>a+b*b,0)) || 1`. -/
noncomputable def jsNorm {n : ℕ} (v : Fin n → ℝ) : ℝ :=
  if Real.sqrt (∑ i, v i * v i) = 0 then 1 else Real.sqrt (∑ i, v i * v i)

/-- `Av` in the power-iteration loop. -/
noncomputable def matVec {n : ℕ} (A : Fin n → Fin n → ℝ) (v : Fin n → ℝ) : Fin n → ℝ :=
  fun i => ∑ j, A i j * v j

/-- One iteration of `powerIter`: the Rayleigh quotient estimate
`lambda = Σ v_i (Av)_i` and the renormalized `v = Av / (norm(Av) || 1)`. -/
noncomputable def powerStep {n : ℕ} (A : Fin n → Fin n → ℝ) (s : (Fin n → ℝ) × ℝ) :
    (Fin n → ℝ) × ℝ :=
  ((fun i => matVec A s.1 i /
      (if jsNorm (matVec A s.1) = 0 then 1 else jsNorm (matVec A s.1))),
   ∑ i, s.1 i * matVec A s.1 i)

noncomputable def powerLoop {n : ℕ} (A : Fin n → Fin n → ℝ) :
    ℕ → ((Fin n → ℝ) × ℝ) → ((Fin n → ℝ) × ℝ)
  | 0, s => s
  | t + 1, s => powerLoop A t (powerStep A s)

/-- `powerIter(A, iters = 150)`: normalize the random seed, iterate. -/
noncomputable def powerIter {n : ℕ} (A : Fin n → Fin n → ℝ) (iters : ℕ)
    (seed : Fin n → ℝ) : (Fin n → ℝ) × ℝ :=
  powerLoop A iters ((fun i => seed i / jsNorm seed), 0)

/-- The double-centering matrix `J = I - 11ᵗ/N`. -/
noncomputable def centerJ (n : ℕ) : Fin n → Fin n → ℝ :=
  fun i j => if i = j then 1 - 1 / (n : ℝ) else -(1 / (n : ℝ))

/-- `M = D² * J` (entrywise squared distances times `J`). -/
noncomputable def mdsM {n : ℕ} (D : Fin n → Fin n → ℝ) : Fin n → Fin n → ℝ :=
  fun i j => ∑ k, (D i k * D i k) * centerJ n k j

/-- `B = -0.5 * J * M`. -/
noncomputable def mdsB {n : ℕ} (D : Fin n → Fin n → ℝ) : Fin n → Fin n → ℝ :=
  fun i j => -(1 / 2) * ∑ k, centerJ n i k * mdsM D k j

/-- Deflation between the two extractions:
`B2[i][j] = B[i][j] - e1.value * e1.vector[i] * e1.vector[j]`. -/
noncomputable def deflate {n : ℕ} (B : Fin n → Fin n → ℝ) (e : (Fin n → ℝ) × ℝ) :
    Fin n → Fin n → ℝ :=
  fun i j => B i j - e.2 * e.1 i * e.1 j

structure MDSResult (n : ℕ) where
  x : Fin n → ℝ
  y : Fin n → ℝ
  eigenvalues : List ℝ

/-- The final assembly of `classicalMDS2D`: eigenvalues clamped at zero,
coordinates `sqrt(λ_k) · v_k`. -/
noncomputable def mdsAssemble {n : ℕ} (e1 e2 : (Fin n → ℝ) × ℝ) : MDSResult n :=
  { x := fun i => Real.sqrt (max e1.2 0) * e1.1 i,
    y := fun i => Real.sqrt (max e2.2 0) * e2.1 i,
    eigenvalues := [max e1.2 0, max e2.2 0] }

/-- `classicalMDS2D`: for `N < 2` the empty result (`{x:[],y:[],
eigenvalues:[]}`, modelled with zero coordinate functions), otherwise two
deflated power iterations on the double-centered squared distance matrix. -/
noncomputable def classicalMDS2D (n : ℕ) (D : Fin n → Fin n → ℝ)
    (seed1 seed2 : Fin n → ℝ) : MDSResult n :=
  if n < 2 then { x := fun _ => 0, y := fun _ => 0, eigenvalues := [] }
  else
    mdsAssemble (powerIter (mdsB D) 150 seed1)
      (powerIter (deflate (mdsB D) (powerIter (mdsB D) 150 seed1)) 150 seed2)

def zeroMat (n : ℕ) : Fin n → Fin n → ℝ := fun _ _ => 0

def zeroVec (n : ℕ) : Fin n → ℝ := fun _ => 0

theorem matVec_zero {n : ℕ} (v : Fin n → ℝ) : matVec (zeroMat n) v = zeroVec n := by
  funext i
  simp [matVec, zeroMat, zeroVec]

theorem powerStep_zero {n : ℕ} (s : (Fin n → ℝ) × ℝ) :
    powerStep (zeroMat n) s = (zeroVec n, 0) := by
  unfold powerStep
  rw [matVec_zero]
  simp only [Prod.mk.injEq]
  constructor
  · funext i
    simp [zeroVec]
  · simp [zeroVec]

theorem powerLoop_zero_fix {n : ℕ} (t : ℕ) :
    powerLoop (zeroMat n) t (zeroVec n, 0) = (zeroVec n, 0) := by
  induction t with
  | zero => rfl
  | succ t ih =>
    show powerLoop _ t (powerStep _ _) = _
    rw [powerStep_zero]
    exact ih

theorem powerIter_zero {n : ℕ} (t : ℕ) (seed : Fin n → ℝ) :
    powerIter (zeroMat n) (t + 1) seed = (zeroVec n, 0) := by
  unfold powerIter
  show powerLoop _ t (powerStep _ _) = _
  rw [powerStep_zero]
  exact powerLoop_zero_fix t

theorem mdsB_zeroD {n : ℕ} : mdsB (zeroMat n) = zeroMat n := by
  funext i j
  simp [mdsB, mdsM, zeroMat]

theorem deflate_zero {n : ℕ} : deflate (zeroMat n) (zeroVec n, 0) = zeroMat n := by
  funext i j
  simp [deflate, zeroMat, zeroVec]

/-- C7: for every `N ≥ 2` and arbitrary power-iteration seed vectors,
`classicalMDS2D` on the `N×N` all-zero distance matrix returns all-zero `x`
and `y` coordinates and both eigenvalues equal to zero. -/
theorem C7_mds_zero_matrix (n : ℕ) (h : 2 ≤ n) (seed1 seed2 : Fin n → ℝ) :
    (∀ i, (classicalMDS2D n (zeroMat n) seed1 seed2).x i = 0) ∧
    (∀ i, (classicalMDS2D n (zeroMat n) seed1 seed2).y i = 0) ∧
    (classicalMDS2D n (zeroMat n) seed1 seed2).eigenvalues = [0, 0] := by
  have h1 : powerIter (mdsB (zeroMat n)) 150 seed1 = (zeroVec n, 0) := by
    rw [mdsB_zeroD]
    exact powerIter_zero 149 seed1
  have h2 : powerIter (deflate (mdsB (zeroMat n))
      (powerIter (mdsB (zeroMat n)) 150 seed1)) 150 seed2 = (zeroVec n, 0) := by
    rw [h1, mdsB_zeroD, deflate_zero]
    exact powerIter_zero 149 seed2
  have hcalc : classicalMDS2D n (zeroMat n) seed1 seed2 =
      { x := fun _ => 0, y := fun _ => 0, eigenvalues := [0, 0] } := by
    unfold classicalMDS2D
    rw [if_neg (by omega), h2, h1]
    unfold mdsAssemble
    simp [zeroVec]
  rw [hcalc]
  exact ⟨fun i => rfl, fun i => rfl, rfl⟩

/-- C7 witness: the theorem applied at `N = 2` with all-ones seeds. -/
theorem C7_witness :
    (2 ≤ 2) ∧
      ((∀ i, (classicalMDS2D 2 (zeroMat 2) (fun _ => 1) (fun _ => 1)).x i = 0) ∧
       (∀ i, (classicalMDS2D 2 (zeroMat 2) (fun _ => 1) (fun _ => 1)).y i = 0) ∧
       (classicalMDS2D 2 (zeroMat 2) (fun _ => 1) (fun _ => 1)).eigenvalues = [0, 0]) :=
  ⟨by norm_num, C7_mds_zero_matrix 2 (by norm_num) (fun _ => 1) (fun _ => 1)⟩

/-! ## Co-authorship graph builder (`computeCoauthorGraph`)

The fallback path canonicalizes author names; its call to the platform's
NFKD normalizer (`stripDiacritics`) is the parameter `strip`.  The
rendering-only circular layout (`cos`/`sin` node coordinates) is not
modelled; everything else is. -/

/-- A row of the optional pre-deduplication authorship projection. -/
structure AuthRow where
  id : String := ""
  work_id : String := ""
  author_openalex_id : String := ""
  deriving DecidableEq

structure GraphNode where
  id : String
  name : Option String
  level : String
  deg : Nat
  deriving DecidableEq

structure GraphEdge where
  a : String
  b : String
  ai : Nat
  bi : Nat
  count : Nat
  pubs : List PubRow
  deriving DecidableEq

structure CoauthGraph where
  nodes : List GraphNode
  edges : List GraphEdge
  deriving DecidableEq

/-- The graph builder's `idNorm`: trim, then strip the authors URL and the
site URL. -/
def idNormG (s : String) : String :=
  stripHttp "openalex.org/" (stripHttp "openalex.org/authors/" (trimStr s))

/-- The graph builder's `workNorm`. -/
def workNormG (s : String) : String :=
  stripHttp "openalex.org/" (stripHttp "openalex.org/works/" (trimStr s))

/-- `p.id || p.work_id || ''` normalized as a work id. -/
def pubWid (p : PubRow) : String :=
  workNormG (if p.id ≠ "" then p.id else p.work_id)

/-- `roster id -> display name` (`r.Name || r.OpenAlexID`). -/
def nameOfPairs (roster : List RosterRow) : List (String × String) :=
  roster.map (fun r => (idNormG r.OpenAlexID, if r.Name = "" then r.OpenAlexID else r.Name))

def levelOfPairs (roster : List RosterRow) : List (String × String) :=
  roster.map (fun r => (idNormG r.OpenAlexID, trimStr r.Level))

/-- JS `Map` built from a pair list: on duplicate keys the LAST pair wins. -/
def mapGetLast {α : Type} (m : List (String × α)) (k : String) : Option α :=
  m.reverse.lookup k

/-- The work ids of the current selection (`Set` of normalized ids). -/
def selectedWorkIDs (pubs : List PubRow) : List String :=
  (pubs.map pubWid).filter (· ≠ "")

/-- `byWork.get(wid).add(aid)`, creating the per-work set if needed. -/
def addWork (m : List (String × List String)) (wid aid : String) :
    List (String × List String) :=
  match m with
  | [] => [(wid, [aid])]
  | (w, s) :: rest =>
    if w = wid then (w, insertNew s aid) :: rest else (w, s) :: addWork rest wid aid

/-- `byWork.set(wid, ids)` (replacing any existing entry). -/
def setWork (m : List (String × List String)) (wid : String) (s : List String) :
    List (String × List String) :=
  match m with
  | [] => [(wid, s)]
  | (w, l) :: rest =>
    if w = wid then (w, s) :: rest else (w, l) :: setWork rest wid s

/-- Preferred path: expand the pre-dedup authorship rows into
work → cohort-author-id sets, keeping only selected works and roster ids. -/
def byWorkPreferred (roster : List RosterRow) (pubs : List PubRow)
    (auth : List AuthRow) : List (String × List String) :=
  auth.foldl (fun m row =>
    let wid := workNormG (if row.id ≠ "" then row.id else row.work_id)
    if wid ∈ selectedWorkIDs pubs then
      let aid := idNormG row.author_openalex_id
      if (mapGetLast (nameOfPairs roster) aid).isSome then addWork m wid aid else m
    else m) []

/-- `splitAuthorsList`: split a semicolon-joined author string. -/
def splitAuthorsList (s : String) : List String :=
  if s = "" then [] else ((splitStr ';' s).map trimStr).filter (· ≠ "")

/-- `'a' <= c && c <= 'z'`. -/
def isLowerAZ (c : Char) : Bool := decide ('a' ≤ c) && decide (c ≤ 'z')

/-- Squash every maximal run of characters failing `keep` into a single
`' '` and leave the others; models a global JS `replace(/[...]+/g, ' ')`.
The `inRun` flag tells whether the current position continues a squashed
run. -/
def squashRuns (keep : Char → Bool) : Bool → List Char → List Char
  | _, [] => []
  | inRun, c :: cs =>
    if keep c then c :: squashRuns keep false cs
    else if inRun then squashRuns keep true cs
    else ' ' :: squashRuns keep true cs

/-- `"Last, First" → "First Last"`: the `^([^,]+),\s*(.+)$` match followed
by the swap (with the regex backtracking corner case of an all-whitespace
tail, where `\s*` gives one character back to `(.+)`). -/
def canonCommaSwap (s : String) : String :=
  let pre := s.data.takeWhile (fun c => !(c = ','))
  let rest := s.data.dropWhile (fun c => !(c = ','))
  match rest with
  | [] => s
  | _ :: post =>
    if pre = [] then s
    else
      let m2 := post.dropWhile isWsChar
      if m2 ≠ [] then String.mk (m2 ++ ' ' :: pre)
      else
        match post.getLast? with
        | some c => String.mk (c :: ' ' :: pre)
        | none => s

/-- `while (parts.length > 1 && suff.has(parts.at(-1))) parts.pop()`. -/
def dropTrailing (suff : List String) (parts : List String) : List String :=
  if h : 1 < parts.length ∧ parts.getLastD "" ∈ suff then
    dropTrailing suff parts.dropLast
  else parts
termination_by parts.length
decreasing_by
  have := h.1
  rw [List.length_dropLast]
  omega

/-- `canonName`: diacritic-strip, lower-case, trim, comma swap, punctuation
and non-letter characters to spaces, whitespace collapse and trim, then
suffix dropping, particle merging and reduction to "first-initial
last-name" (on an empty `parts` list the JS code would throw on
`first[0]`; here `strTake "" 1 = ""`). -/
def canonName (strip : String → String) (raw : String) : String :=
  let s0 := trimStr (lowerStr (strip raw))
  let s1 := canonCommaSwap s0
  let s2 := trimStr (String.mk (squashRuns (fun c => !isWsChar c) false
    ((s1.data.map (fun c => if c = '.' ∨ c = '\'' ∨ c = '’' ∨ c = '-' then ' ' else c)).map
      (fun c => if isLowerAZ c || isWsChar c then c else ' '))))
  let parts := (splitStr ' ' s2).filter (· ≠ "")
  if parts.length = 1 then parts.headD ""
  else
    let suff := ["jr", "sr", "iii", "ii"]
    let parts := dropTrailing suff parts
    let particles := ["de", "del", "della", "der", "den", "van", "von", "da", "di",
      "dos", "la", "le", "mac", "mc", "bin", "al", "ibn", "st", "st."]
    let first := parts.headD ""
    let pen := parts.getD (parts.length - 2) ""
    let last := if 3 ≤ parts.length ∧ pen ∈ particles then
        pen ++ " " ++ parts.getLastD ""
      else parts.getLastD ""
    strTake first 1 ++ " " ++ last

/-- `rosterByCanon.get(cname).push(id)` (bucket append, creating buckets). -/
def addCanon (m : List (String × List String)) (k v : String) :
    List (String × List String) :=
  match m with
  | [] => [(k, [v])]
  | (k0, l) :: rest =>
    if k0 = k then (k0, l ++ [v]) :: rest else (k0, l) :: addCanon rest k v

/-- canonical name → roster ids (the `name` field the source also stores in
each bucket entry is never read afterwards, so only ids are kept). -/
def rosterByCanon (strip : String → String) (roster : List RosterRow) :
    List (String × List String) :=
  roster.foldl (fun m r => addCanon m (canonName strip r.Name) (idNormG r.OpenAlexID)) []

/-- Fallback path: derive each work's cohort id set by canon-matching the
semicolon-joined author names; keep the work only when ≥ 2 ids match. -/
def byWorkFallback (strip : String → String) (roster : List RosterRow)
    (pubs : List PubRow) : List (String × List String) :=
  pubs.foldl (fun m p =>
    let wid := pubWid p
    if wid = "" then m
    else
      let idsOnWork := (splitAuthorsList p.authors).foldl (fun s nm =>
        match (rosterByCanon strip roster).lookup (canonName strip nm) with
        | some hits => hits.foldl insertNew s
        | none => s) []
      if 2 ≤ idsOnWork.length then setWork m wid idsOnWork else m) []

/-- `widOf(p) = workNorm(p?.id || p?.work_id || '')` on a possibly-missing
row. -/
def widOfOpt (p : Option PubRow) : String :=
  match p with
  | some p => pubWid p
  | none => ""

/-- work id → first matching selected publication row. -/
def widToPub (pubs : List PubRow) : List (String × PubRow) :=
  pubs.foldl (fun m p =>
    let w := pubWid p
    if w ≠ "" ∧ (m.lookup w).isNone then m ++ [(w, p)] else m) []

/-- The `i < j` double loop over a sorted id list, in loop order. -/
def pairsOf : List String → List (String × String)
  | [] => []
  | x :: rest => (rest.map (fun y => (x, y))) ++ pairsOf rest

/-- `pairPubs.get(key).push(pub)` (the pushed value may be `undefined`). -/
def appendPub (pp : List (String × List (Option PubRow))) (key : String)
    (pub : Option PubRow) : List (String × List (Option PubRow)) :=
  match pp with
  | [] => [(key, [pub])]
  | (k, l) :: rest =>
    if k = key then (k, l ++ [pub]) :: rest else (k, l) :: appendPub rest key pub

/-- Build `pairCounts` and `pairPubs` from the work → id-set map: per work,
sort the set, then bump every `a|b` pair key. -/
def pairMaps (byWork : List (String × List String)) (pubs : List PubRow) :
    List (String × Nat) × List (String × List (Option PubRow)) :=
  byWork.foldl (fun acc wk =>
    let ids := sortBy strLeJS wk.2
    (pairsOf ids).foldl (fun acc ab =>
      let key := ab.1 ++ "|" ++ ab.2
      (bumpCount acc.1 key, appendPub acc.2 key ((widToPub pubs).lookup wk.1))) acc)
    ([], [])

/-- `nodeIDs`: split every pair key on `'|'` and collect the first two
components in insertion order. -/
def nodeIDsOf (pc : List (String × Nat)) : List String :=
  pc.foldl (fun s q =>
    let parts := splitStr '|' q.1
    insertNew (insertNew s (parts.getD 0 "")) (parts.getD 1 "")) []

/-- The node records (degree filled in later). -/
def graphNodes (roster : List RosterRow) (pc : List (String × Nat)) : List GraphNode :=
  (nodeIDsOf pc).map (fun id =>
    { id := id
      name := mapGetLast (nameOfPairs roster) id
      level := match mapGetLast (levelOfPairs roster) id with
        | some l => if l = "" then id else l
        | none => id
      deg := 0 })

/-- Deduplicate an edge's supporting publication list by work id, dropping
entries without one (this also drops `undefined` placeholders). -/
def dedupByWid (l : List (Option PubRow)) : List PubRow :=
  (l.foldl (fun (acc : List String × List PubRow) op =>
    match op with
    | none => acc
    | some p =>
      let wid := pubWid p
      if wid ≠ "" ∧ wid ∉ acc.1 then (acc.1 ++ [wid], acc.2 ++ [p]) else acc)
    ([], [])).2

/-- `degree`: the sum of the counts of the edges incident to `id`. -/
def degreeOf (edges : List GraphEdge) (id : String) : Nat :=
  edges.foldl (fun d e =>
    let d1 := if e.a = id then d + e.count else d
    if e.b = id then d1 + e.count else d1) 0

/-- `buildGraphFromPairs` (without the circular layout): nodes from the
pair keys, edges from the pair maps, degrees summed per node. -/
def buildGraphFromPairs (roster : List RosterRow)
    (byWork : List (String × List String)) (pubs : List PubRow) : CoauthGraph :=
  let pm := pairMaps byWork pubs
  let nodes0 := graphNodes roster pm.1
  let edges := pm.1.foldl (fun es q =>
    let parts := splitStr '|' q.1
    let a := parts.getD 0 ""
    let b := parts.getD 1 ""
    if a ∈ nodes0.map GraphNode.id ∧ b ∈ nodes0.map GraphNode.id then
      es ++ [{ a := a, b := b,
               ai := nodes0.findIdx (fun nd => nd.id == a),
               bi := nodes0.findIdx (fun nd => nd.id == b),
               count := q.2,
               pubs := dedupByWid ((pm.2.lookup q.1).getD []) }]
    else es) []
  { nodes := nodes0.map (fun nd => { nd with deg := degreeOf edges nd.id }),
    edges := edges }

/-- `computeCoauthorGraph`: the preferred authorship-projection path when
pre-dedup rows are available, the name-matching fallback otherwise. -/
def computeCoauthorGraph (strip : String → String) (roster : List RosterRow)
    (pubs : List PubRow) (authorshipData : List AuthRow) : CoauthGraph :=
  if authorshipData ≠ [] then
    buildGraphFromPairs roster (byWorkPreferred roster pubs authorshipData) pubs
  else
    buildGraphFromPairs roster (byWorkFallback strip roster pubs) pubs

/-! ### Roster-membership invariants of the graph builder -/

/-- The normalized ids of the contributing roster. -/
def rosterIds (roster : List RosterRow) : List String :=
  roster.map (fun r => idNormG r.OpenAlexID)

theorem splitChar_of_not_mem (sep : Char) (l : List Char) (h : sep ∉ l) :
    splitChar sep l = [l] := by
  induction l with
  | nil => rfl
  | cons c cs ih =>
    have hc : ¬(c = sep) := fun hc => h (hc ▸ List.mem_cons_self c cs)
    have hcs : sep ∉ cs := fun hcs => h (List.mem_cons_of_mem c hcs)
    simp [splitChar, ih hcs, hc]

theorem splitChar_append (sep : Char) (l1 l2 : List Char) :
    splitChar sep (l1 ++ sep :: l2) = splitChar sep l1 ++ splitChar sep l2 := by
  induction l1 with
  | nil => simp [splitChar]
  | cons c cs ih =>
    by_cases hc : c = sep
    · simp [splitChar, ih, hc]
    · rcases h : splitChar sep cs with _ | ⟨g, gs⟩
      · exact absurd h (splitChar_ne_nil sep cs)
      · simp [splitChar, ih, h, hc]

theorem splitStr_pairKey (a b : String) (ha : '|' ∉ a.data) (hb : '|' ∉ b.data) :
    splitStr '|' (a ++ "|" ++ b) = [a, b] := by
  unfold splitStr
  have hpipe : ("|" : String).data = ['|'] := rfl
  have hdata : (a ++ "|" ++ b).data = a.data ++ '|' :: b.data := by
    rw [String.data_append, String.data_append, hpipe, List.append_assoc]
    rfl
  rw [hdata, splitChar_append, splitChar_of_not_mem '|' a.data ha,
    splitChar_of_not_mem '|' b.data hb]
  rfl

theorem lookup_mem {α : Type} (m : List (String × α)) (k : String) (v : α)
    (h : m.lookup k = some v) : (k, v) ∈ m := by
  induction m with
  | nil => simp [List.lookup] at h
  | cons q rest ih =>
    obtain ⟨k0, v0⟩ := q
    by_cases hk : k = k0
    · subst hk
      simp only [List.lookup, beq_self_eq_true] at h
      cases h
      exact List.mem_cons_self _ _
    · simp only [List.lookup, beq_eq_false_iff_ne.mpr hk] at h
      exact List.mem_cons_of_mem _ (ih h)

theorem lookup_isSome_mem_keys {α : Type} (m : List (String × α)) (k : String)
    (h : (m.lookup k).isSome) : k ∈ m.map Prod.fst := by
  obtain ⟨v, hv⟩ := Option.isSome_iff_exists.mp h
  exact List.mem_map.mpr ⟨(k, v), lookup_mem m k v hv, rfl⟩

theorem mapGetLast_isSome_mem_keys {α : Type} (m : List (String × α)) (k : String)
    (h : (mapGetLast m k).isSome) : k ∈ m.map Prod.fst := by
  have h' := lookup_isSome_mem_keys m.reverse k h
  rw [List.map_reverse, List.mem_reverse] at h'
  exact h'

theorem nameOfPairs_keys (roster : List RosterRow) :
    (nameOfPairs roster).map Prod.fst = rosterIds roster := by
  unfold nameOfPairs rosterIds
  rw [List.map_map]
  rfl

theorem addWork_vals (R : List String) (m : List (String × List String)) (wid aid : String)
    (hm : ∀ q ∈ m, ∀ x ∈ q.2, x ∈ R) (ha : aid ∈ R) :
    ∀ q ∈ addWork m wid aid, ∀ x ∈ q.2, x ∈ R := by
  induction m with
  | nil =>
    intro q hq x hx
    simp only [addWork, List.mem_singleton] at hq
    subst hq
    simp only [List.mem_singleton] at hx
    exact hx ▸ ha
  | cons q0 rest ih =>
    obtain ⟨w, s⟩ := q0
    intro q hq x hx
    by_cases hw : w = wid
    · simp only [addWork, if_pos hw] at hq
      rcases List.mem_cons.mp hq with rfl | hq
      · rcases mem_insertNew_iff.mp hx with hx' | rfl
        · exact hm (w, s) (List.mem_cons_self _ _) x hx'
        · exact ha
      · exact hm q (List.mem_cons_of_mem _ hq) x hx
    · simp only [addWork, if_neg hw] at hq
      rcases List.mem_cons.mp hq with rfl | hq
      · exact hm (w, s) (List.mem_cons_self _ _) x hx
      · exact ih (fun q' hq' => hm q' (List.mem_cons_of_mem _ hq')) q hq x hx

theorem setWork_vals (R : List String) (m : List (String × List String)) (wid : String)
    (s : List String) (hm : ∀ q ∈ m, ∀ x ∈ q.2, x ∈ R) (hs : ∀ x ∈ s, x ∈ R) :
    ∀ q ∈ setWork m wid s, ∀ x ∈ q.2, x ∈ R := by
  induction m with
  | nil =>
    intro q hq x hx
    simp only [setWork, List.mem_singleton] at hq
    subst hq
    exact hs x hx
  | cons q0 rest ih =>
    obtain ⟨w, l⟩ := q0
    intro q hq x hx
    by_cases hw : w = wid
    · simp only [setWork, if_pos hw] at hq
      rcases List.mem_cons.mp hq with rfl | hq
      · exact hs x hx
      · exact hm q (List.mem_cons_of_mem _ hq) x hx
    · simp only [setWork, if_neg hw] at hq
      rcases List.mem_cons.mp hq with rfl | hq
      · exact hm (w, l) (List.mem_cons_self _ _) x hx
      · exact ih (fun q' hq' => hm q' (List.mem_cons_of_mem _ hq')) q hq x hx

theorem addCanon_vals (R : List String) (m : List (String × List String)) (k v : String)
    (hm : ∀ q ∈ m, ∀ x ∈ q.2, x ∈ R) (hv : v ∈ R) :
    ∀ q ∈ addCanon m k v, ∀ x ∈ q.2, x ∈ R := by
  induction m with
  | nil =>
    intro q hq x hx
    simp only [addCanon, List.mem_singleton] at hq
    subst hq
    simp only [List.mem_singleton] at hx
    exact hx ▸ hv
  | cons q0 rest ih =>
    obtain ⟨k0, l⟩ := q0
    intro q hq x hx
    by_cases hk : k0 = k
    · simp only [addCanon, if_pos hk] at hq
      rcases List.mem_cons.mp hq with rfl | hq
      · rcases List.mem_append.mp hx with hx' | hx'
        · exact hm (k0, l) (List.mem_cons_self _ _) x hx'
        · simp only [List.mem_singleton] at hx'
          exact hx' ▸ hv
      · exact hm q (List.mem_cons_of_mem _ hq) x hx
    · simp only [addCanon, if_neg hk] at hq
      rcases List.mem_cons.mp hq with rfl | hq
      · exact hm (k0, l) (List.mem_cons_self _ _) x hx
      · exact ih (fun q' hq' => hm q' (List.mem_cons_of_mem _ hq')) q hq x hx

theorem byWorkPreferred_vals (roster : List RosterRow) (pubs : List PubRow)
    (auth : List AuthRow) :
    ∀ q ∈ byWorkPreferred roster pubs auth, ∀ x ∈ q.2, x ∈ rosterIds roster := by
  unfold byWorkPreferred
  refine foldl_inv (fun m : List (String × List String) =>
    ∀ q ∈ m, ∀ x ∈ q.2, x ∈ rosterIds roster) _ _ [] (by simp) ?_
  intro m row hm _
  dsimp only
  by_cases hsel : workNormG (if row.id ≠ "" then row.id else row.work_id) ∈
      selectedWorkIDs pubs
  · rw [if_pos hsel]
    by_cases hname : (mapGetLast (nameOfPairs roster)
        (idNormG row.author_openalex_id)).isSome
    · rw [if_pos hname]
      refine addWork_vals _ m _ _ hm ?_
      have := mapGetLast_isSome_mem_keys _ _ hname
      rwa [nameOfPairs_keys] at this
    · rwa [if_neg hname]
  · rwa [if_neg hsel]

theorem rosterByCanon_vals (strip : String → String) (roster : List RosterRow) :
    ∀ q ∈ rosterByCanon strip roster, ∀ x ∈ q.2, x ∈ rosterIds roster := by
  unfold rosterByCanon
  have hgen : ∀ (rs : List RosterRow), (∀ r ∈ rs, r ∈ roster) →
      ∀ m, (∀ q ∈ m, ∀ x ∈ q.2, x ∈ rosterIds roster) →
      ∀ q ∈ rs.foldl (fun m r => addCanon m (canonName strip r.Name) (idNormG r.OpenAlexID)) m,
        ∀ x ∈ q.2, x ∈ rosterIds roster := by
    intro rs
    induction rs with
    | nil => intro _ m hm; exact hm
    | cons r rs ih =>
      intro hrs m hm
      refine ih (fun r' hr' => hrs r' (List.mem_cons_of_mem _ hr')) _ ?_
      refine addCanon_vals _ m _ _ hm ?_
      exact List.mem_map.mpr ⟨r, hrs r (List.mem_cons_self _ _), rfl⟩
  exact hgen roster (fun r hr => hr) [] (by simp)

theorem byWorkFallback_vals (strip : String → String) (roster : List RosterRow)
    (pubs : List PubRow) :
    ∀ q ∈ byWorkFallback strip roster pubs, ∀ x ∈ q.2, x ∈ rosterIds roster := by
  unfold byWorkFallback
  refine foldl_inv (fun m : List (String × List String) =>
    ∀ q ∈ m, ∀ x ∈ q.2, x ∈ rosterIds roster) _ _ [] (by simp) ?_
  intro m p hm _
  dsimp only
  by_cases hw : pubWid p = ""
  · rwa [if_pos hw]
  · rw [if_neg hw]
    have hids : ∀ x ∈ (splitAuthorsList p.authors).foldl (fun s nm =>
        match (rosterByCanon strip roster).lookup (canonName strip nm) with
        | some hits => hits.foldl insertNew s
        | none => s) [], x ∈ rosterIds roster := by
      refine foldl_inv (fun s : List String => ∀ x ∈ s, x ∈ rosterIds roster) _ _ []
        (by simp) ?_
      intro s nm hs _
      dsimp only
      rcases hlk : (rosterByCanon strip roster).lookup (canonName strip nm) with _ | hits
      · exact hs
      · have hhits : ∀ x ∈ hits, x ∈ rosterIds roster :=
          rosterByCanon_vals strip roster _ (lookup_mem _ _ _ hlk)
        refine foldl_inv (fun s : List String => ∀ x ∈ s, x ∈ rosterIds roster) _ _ s hs ?_
        intro s' aid hs' haid x hx
        rcases mem_insertNew_iff.mp hx with hx' | rfl
        · exact hs' x hx'
        · exact hhits x haid
    by_cases hlen : 2 ≤ ((splitAuthorsList p.authors).foldl (fun s nm =>
        match (rosterByCanon strip roster).lookup (canonName strip nm) with
        | some hits => hits.foldl insertNew s
        | none => s) []).length
    · rw [if_pos hlen]
      exact setWork_vals _ m _ _ hm hids
    · rwa [if_neg hlen]

theorem pairsOf_mem (l : List String) (ab : String × String) (h : ab ∈ pairsOf l) :
    ab.1 ∈ l ∧ ab.2 ∈ l := by
  induction l with
  | nil => simp [pairsOf] at h
  | cons x rest ih =>
    simp only [pairsOf, List.mem_append] at h
    rcases h with h | h
    · obtain ⟨y, hy, hxy⟩ := List.mem_map.mp h
      rw [← hxy]
      exact ⟨List.mem_cons_self _ _, List.mem_cons_of_mem _ hy⟩
    · obtain ⟨h1, h2⟩ := ih h
      exact ⟨List.mem_cons_of_mem _ h1, List.mem_cons_of_mem _ h2⟩

/-- Every key in `pairCounts` is `a|b` for two ids drawn from the work
sets. -/
theorem pairMaps_keys (byWork : List (String × List String)) (pubs : List PubRow)
    (R : List String) (hv : ∀ q ∈ byWork, ∀ x ∈ q.2, x ∈ R) :
    ∀ key ∈ (pairMaps byWork pubs).1.map Prod.fst,
      ∃ a b, a ∈ R ∧ b ∈ R ∧ key = a ++ "|" ++ b := by
  unfold pairMaps
  refine foldl_inv (fun acc : List (String × Nat) × List (String × List (Option PubRow)) =>
    ∀ key ∈ acc.1.map Prod.fst, ∃ a b, a ∈ R ∧ b ∈ R ∧ key = a ++ "|" ++ b) _ _ ([], [])
    (by simp) ?_
  intro acc wk hacc hwk
  dsimp only
  refine foldl_inv (fun acc : List (String × Nat) × List (String × List (Option PubRow)) =>
    ∀ key ∈ acc.1.map Prod.fst, ∃ a b, a ∈ R ∧ b ∈ R ∧ key = a ++ "|" ++ b) _ _ acc hacc ?_
  intro acc' ab hacc' hab key hkey
  dsimp only at hkey
  obtain ⟨q, hq, hqk⟩ := List.mem_map.mp hkey
  rcases bumpCount_keys acc'.1 _ q hq with hq' | hq'
  · obtain ⟨h1, h2⟩ := pairsOf_mem _ ab hab
    have h1' : ab.1 ∈ wk.2 := (mem_sortBy _ _ _).mp h1
    have h2' : ab.2 ∈ wk.2 := (mem_sortBy _ _ _).mp h2
    exact ⟨ab.1, ab.2, hv wk hwk _ h1', hv wk hwk _ h2', by rw [← hqk, hq']⟩
  · exact hacc' key (hqk ▸ hq')

theorem nodeIDsOf_sub (pc : List (String × Nat)) (R : List String)
    (hk : ∀ key ∈ pc.map Prod.fst, ∃ a b, a ∈ R ∧ b ∈ R ∧ key = a ++ "|" ++ b)
    (hR : ∀ x ∈ R, '|' ∉ x.data) :
    ∀ x ∈ nodeIDsOf pc, x ∈ R := by
  unfold nodeIDsOf
  have hgen : ∀ (qs : List (String × Nat)), (∀ q ∈ qs, q ∈ pc) →
      ∀ s, (∀ x ∈ s, x ∈ R) →
      ∀ x ∈ qs.foldl (fun s q =>
        let parts := splitStr '|' q.1
        insertNew (insertNew s (parts.getD 0 "")) (parts.getD 1 "")) s, x ∈ R := by
    intro qs
    induction qs with
    | nil => intro _ s hs; exact hs
    | cons q qs ih =>
      intro hqs s hs
      refine ih (fun q' hq' => hqs q' (List.mem_cons_of_mem _ hq')) _ ?_
      obtain ⟨a, b, haR, hbR, hab⟩ := hk q.1
        (List.mem_map.mpr ⟨q, hqs q (List.mem_cons_self _ _), rfl⟩)
      have hsplit : splitStr '|' q.1 = [a, b] := by
        rw [hab]
        exact splitStr_pairKey a b (hR a haR) (hR b hbR)
      intro x hx
      dsimp only at hx
      rw [hsplit] at hx
      rcases mem_insertNew_iff.mp hx with hx | rfl
      · rcases mem_insertNew_iff.mp hx with hx | rfl
        · exact hs x hx
        · exact haR
      · exact hbR
  exact hgen pc (fun q hq => hq) [] (by simp)

/-- C5 (amended): provided no normalized roster id contains the `'|'`
character (which the pair-key encoding `a|b` cannot round-trip), every edge
produced by the graph builder — on both the authorship-projection path and
the name-matching fallback path — has both endpoint ids in the
contributing roster. -/
theorem C5_edges_endpoints_in_roster (strip : String → String) (roster : List RosterRow)
    (pubs : List PubRow) (authorshipData : List AuthRow)
    (hpipe : ∀ r ∈ roster, '|' ∉ (idNormG r.OpenAlexID).data) :
    ∀ e ∈ (computeCoauthorGraph strip roster pubs authorshipData).edges,
      e.a ∈ rosterIds roster ∧ e.b ∈ rosterIds roster := by
  have hR : ∀ x ∈ rosterIds roster, '|' ∉ x.data := by
    intro x hx
    obtain ⟨r, hr, hrx⟩ := List.mem_map.mp hx
    exact hrx ▸ hpipe r hr
  have hbuild : ∀ byWork : List (String × List String),
      (∀ q ∈ byWork, ∀ x ∈ q.2, x ∈ rosterIds roster) →
      ∀ e ∈ (buildGraphFromPairs roster byWork pubs).edges,
        e.a ∈ rosterIds roster ∧ e.b ∈ rosterIds roster := by
    intro byWork hv
    have hk := pairMaps_keys byWork pubs (rosterIds roster) hv
    unfold buildGraphFromPairs
    dsimp only
    refine foldl_inv (fun es : List GraphEdge =>
      ∀ e ∈ es, e.a ∈ rosterIds roster ∧ e.b ∈ rosterIds roster) _ _ [] (by simp) ?_
    intro es q hes hq
    dsimp only
    obtain ⟨a, b, haR, hbR, hab⟩ := hk q.1 (List.mem_map.mpr ⟨q, hq, rfl⟩)
    have hsplit : splitStr '|' q.1 = [a, b] := by
      rw [hab]
      exact splitStr_pairKey a b (hR a haR) (hR b hbR)
    rw [hsplit]
    by_cases hmem : (a : String) ∈ (graphNodes roster (pairMaps byWork pubs).1).map
        GraphNode.id ∧ (b : String) ∈ (graphNodes roster (pairMaps byWork pubs).1).map
        GraphNode.id
    · rw [if_pos (by simpa using hmem)]
      intro e he
      rcases List.mem_append.mp he with he | he
      · exact hes e he
      · simp only [List.mem_singleton] at he
        subst he
        exact ⟨by simpa using haR, by simpa using hbR⟩
    · rw [if_neg (by simpa using hmem)]
      exact hes
  unfold computeCoauthorGraph
  by_cases hauth : authorshipData ≠ []
  · rw [if_pos hauth]
    exact hbuild _ (byWorkPreferred_vals roster pubs authorshipData)
  · rw [if_neg hauth]
    exact hbuild _ (byWorkFallback_vals strip roster pubs)

/-- A roster whose first normalized id contains a `'|'`. -/
def rosterPipe : List RosterRow :=
  [{ OpenAlexID := "x|y", Name := "P" }, { OpenAlexID := "z", Name := "Q" }]

def authPipe : List AuthRow :=
  [{ id := "W1", author_openalex_id := "x|y" }, { id := "W1", author_openalex_id := "z" }]

def pubW1 : PubRow := { id := "W1" }

/-- C5 counterexample: with a roster id containing `'|'`, the pair key
`"x|y|z"` splits back into `"x"` and `"y"`, so the produced edge has
endpoints outside the roster — the claim as stated (for every input) is
false. -/
theorem C5_counterexample_pipe_id :
    ¬ (∀ e ∈ (computeCoauthorGraph id rosterPipe [pubW1] authPipe).edges,
        e.a ∈ rosterIds rosterPipe ∧ e.b ∈ rosterIds rosterPipe) := by
  decide

/-- C5 witness: a clean two-author roster on one shared work; the amended
theorem applies and the single produced edge stays in the roster. -/
theorem C5_witness :
    (∀ r ∈ [({ OpenAlexID := "A1", Name := "P" } : RosterRow),
            { OpenAlexID := "A2", Name := "Q" }], '|' ∉ (idNormG r.OpenAlexID).data) ∧
    (∀ e ∈ (computeCoauthorGraph id
        [({ OpenAlexID := "A1", Name := "P" } : RosterRow),
         { OpenAlexID := "A2", Name := "Q" }] [pubW1]
        [{ id := "W1", author_openalex_id := "A1" },
         { id := "W1", author_openalex_id := "A2" }]).edges,
      e.a ∈ rosterIds [({ OpenAlexID := "A1", Name := "P" } : RosterRow),
        { OpenAlexID := "A2", Name := "Q" }] ∧
      e.b ∈ rosterIds [({ OpenAlexID := "A1", Name := "P" } : RosterRow),
        { OpenAlexID := "A2", Name := "Q" }]) :=
  ⟨by decide,
    C5_edges_endpoints_in_roster id
      [{ OpenAlexID := "A1", Name := "P" }, { OpenAlexID := "A2", Name := "Q" }]
      [pubW1]
      [{ id := "W1", author_openalex_id := "A1" },
       { id := "W1", author_openalex_id := "A2" }]
      (by decide)⟩

/-! ## Topic-query filter (`normalizeText`, `stem`, `tokenize`,
`fuzzyQueryMatch` and the search haystack of `normalizePubsFor`) -/

/-- `[a-z0-9]`: the characters `normalizeText` keeps. -/
def lowerAlnum (c : Char) : Bool :=
  (decide ('a' ≤ c) && decide (c ≤ 'z')) || (decide ('0' ≤ c) && decide (c ≤ '9'))

def trimChars (l : List Char) : List Char :=
  ((l.dropWhile isWsChar).reverse.dropWhile isWsChar).reverse

/-- The character pipeline of `normalizeText` after lower-casing:
`replace(/[^a-z0-9]+/g,' ').replace(/\s+/g,' ').trim()`. -/
def normTextChars (l : List Char) : List Char :=
  trimChars (squashRuns (fun c => !isWsChar c) false (squashRuns lowerAlnum false l))

/-- `normalizeText`: NFKD + diacritic strip (the `strip` parameter), ASCII
lower-casing, then the character pipeline. -/
def normalizeText (strip : String → String) (t : String) : String :=
  String.mk (normTextChars (lowerStr (strip t)).data)

/-- JS `s.split(/\s+/)`: collapse each whitespace run to one space, then
split on spaces. -/
def splitWsRuns (l : List Char) : List (List Char) :=
  splitChar ' ' (squashRuns (fun c => !isWsChar c) false l)

/-- The word list a text contributes to matching:
`normalizeText(t).split(/\s+/).filter(Boolean)`. -/
def textWords (strip : String → String) (t : String) : List String :=
  (((splitWsRuns (normalizeText strip t).data).map String.mk).filter (· ≠ ""))

def endsWithStr (s t : String) : Bool :=
  decide ((s.data.reverse).take t.data.length = t.data.reverse)

def dropRightStr (s : String) (n : Nat) : String :=
  String.mk (s.data.take (s.data.length - n))

/-- `s[s.length-1]` (only read under a length guard). -/
def lastChar (s : String) : Char := s.data.getLastD ' '

/-- The conservative stemmer: plural endings, then `-ing`/`-ed` with
doubled-consonant repair; tokens of length ≤ 3 are left alone. -/
def stem (w : String) : String :=
  if strLen w ≤ 3 then w
  else
    let s1 :=
      if endsWithStr w "sses" then dropRightStr w 2
      else if endsWithStr w "ies" ∧ 4 < strLen w then dropRightStr w 3 ++ "y"
      else if endsWithStr w "s" ∧ ¬(endsWithStr w "ss" = true) ∧ 3 < strLen w then
        dropRightStr w 1
      else w
    if endsWithStr s1 "ing" ∧ 5 < strLen s1 then
      let s2 := dropRightStr s1 3
      if 3 < strLen s2 ∧ lastChar s2 = lastChar (dropRightStr s2 1) then dropRightStr s2 1
      else s2
    else if endsWithStr s1 "ed" ∧ 4 < strLen s1 then
      let s2 := dropRightStr s1 2
      if 3 < strLen s2 ∧ lastChar s2 = lastChar (dropRightStr s2 1) then dropRightStr s2 1
      else s2
    else s1

/-- `Array.from(new Set(...))`: deduplicate keeping first occurrences. -/
def dedupFirst (l : List String) : List String := l.foldl insertNew []

/-- `tokenize`: normalize, split, stem, deduplicate. -/
def tokenize (strip : String → String) (text : String) : List String :=
  dedupFirst ((textWords strip text).map stem)

/-- STRICT token match: exact equality only after stemming. -/
def strongTokenMatch (qt tt : String) : Bool := tt == qt

/-- `fuzzyQueryMatch`: AND semantics across query tokens. -/
def fuzzyQueryMatch (strip : String → String) (query text : String) : Bool :=
  let qTokens := tokenize strip query
  if qTokens.isEmpty then true
  else
    let tTokens := tokenize strip text
    qTokens.all (fun qt => tTokens.any (fun tt => strongTokenMatch qt tt))

/-- `cohortTokensByID`: cohort author id → name tokens. -/
def cohortTokensByID (strip : String → String) (roster : List RosterRow) :
    List (String × List String) :=
  roster.map (fun r => (normalizeID r.OpenAlexID, textWords strip r.Name))

/-- The author-id list of a work: the union field if present and non-empty
after normalization, else the per-authorship id list. -/
def workAuthorIds (p : PubRow) : List String :=
  let union := trimStr p.cohort_union_author_ids
  let ids := if union ≠ "" then ((splitStr '|' union).map normalizeID).filter (· ≠ "")
             else []
  if ids ≠ [] then ids
  else ((splitPipe p.authorships__author__id).map normalizeID).filter (· ≠ "")

/-- The name tokens of cohort authors appearing on this work. -/
def cohortNameTokens (strip : String → String) (roster : List RosterRow) (p : PubRow) :
    List String :=
  (workAuthorIds p).foldl (fun acc aid =>
    match mapGetLast (cohortTokensByID strip roster) aid with
    | some toks => if toks ≠ [] then acc ++ toks else acc
    | none => acc) []

/-- `arr.join(' ')`. -/
def joinSpace : List String → String
  | [] => ""
  | [x] => x
  | x :: xs => x ++ " " ++ joinSpace xs

/-- The `cParts` list of `normalizePubsFor`: concepts, subfield, topic,
title, then the cohort name tokens if any. -/
def haystackParts (strip : String → String) (roster : List RosterRow) (p : PubRow) :
    List String :=
  [p.concepts_list, p.primary_topic__subfield__display_name,
   p.primary_topic__display_name, p.display_name] ++
  (if cohortNameTokens strip roster p ≠ [] then [joinSpace (cohortNameTokens strip roster p)]
   else [])

/-- `p._topic_haystack = normalizeText(cParts.join(' ').toLowerCase())`. -/
def topicHaystack (strip : String → String) (roster : List RosterRow) (p : PubRow) :
    String :=
  normalizeText strip (lowerStr (joinSpace (haystackParts strip roster p)))

/-- The topic-query filter of the pipeline:
`if (topicQ) pubs = pubs.filter(p => fuzzyQueryMatch(topicQ, p._topic_haystack))`. -/
def passesTopicFilter (strip : String → String) (roster : List RosterRow)
    (q : String) (p : PubRow) : Bool :=
  if q = "" then true else fuzzyQueryMatch strip q (topicHaystack strip roster p)

theorem mem_foldl_insertNew (l acc : List String) (x : String) :
    x ∈ l.foldl insertNew acc ↔ x ∈ acc ∨ x ∈ l := by
  induction l generalizing acc with
  | nil => simp
  | cons y ys ih =>
    simp only [List.foldl_cons, ih, mem_insertNew_iff, List.mem_cons]
    tauto

theorem mem_dedupFirst (l : List String) (x : String) : x ∈ dedupFirst l ↔ x ∈ l := by
  unfold dedupFirst
  rw [mem_foldl_insertNew]
  simp

theorem mem_tokenize (strip : String → String) (t : String) (x : String) :
    x ∈ tokenize strip t ↔ ∃ w ∈ textWords strip t, stem w = x := by
  unfold tokenize
  rw [mem_dedupFirst, List.mem_map]

/-- The AND-semantics characterization of `fuzzyQueryMatch`. -/
theorem fuzzyQueryMatch_iff (strip : String → String) (q t : String) :
    fuzzyQueryMatch strip q t = true ↔
      ∀ w ∈ textWords strip q, stem w ∈ tokenize strip t := by
  unfold fuzzyQueryMatch
  by_cases hq : (tokenize strip q).isEmpty
  · rw [if_pos hq]
    have hnil : tokenize strip q = [] := List.isEmpty_iff.mp hq
    have hwords : textWords strip q = [] := by
      by_contra hne
      obtain ⟨w, hw⟩ := List.exists_mem_of_ne_nil _ hne
      have : stem w ∈ tokenize strip q := (mem_tokenize strip q _).mpr ⟨w, hw, rfl⟩
      rw [hnil] at this
      exact absurd this (List.not_mem_nil _)
    simp [hwords]
  · rw [if_neg hq]
    simp only [List.all_eq_true]
    constructor
    · intro hall w hw
      have hqt : stem w ∈ tokenize strip q := (mem_tokenize strip q _).mpr ⟨w, hw, rfl⟩
      have := hall (stem w) hqt
      rw [List.any_eq_true] at this
      obtain ⟨tt, htt, hmatch⟩ := this
      unfold strongTokenMatch at hmatch
      rw [beq_iff_eq] at hmatch
      exact hmatch ▸ htt
    · intro hforall qt hqt
      obtain ⟨w, hw, rfl⟩ := (mem_tokenize strip q qt).mp hqt
      rw [List.any_eq_true]
      exact ⟨stem w, hforall w hw, by unfold strongTokenMatch; exact beq_self_eq_true _⟩

/-! ### Canonical word decomposition

`alnumRuns l` lists the maximal runs of `[a-z0-9]` characters of `l`.  It
is the canonical form through which the `normalizeText`/`split(/\s+/)`
pipeline is analysed: every stage of the pipeline preserves it. -/

theorem dropWhile_length_le {α : Type} (p : α → Bool) (l : List α) :
    (l.dropWhile p).length ≤ l.length := by
  induction l with
  | nil => simp
  | cons c cs ih =>
    by_cases h : p c
    · rw [List.dropWhile_cons, if_pos h]
      simp only [List.length_cons]
      omega
    · simp [List.dropWhile_cons, h]

def alnumRuns : List Char → List (List Char)
  | [] => []
  | c :: cs =>
    if lowerAlnum c then
      (c :: cs.takeWhile lowerAlnum) :: alnumRuns (cs.dropWhile lowerAlnum)
    else alnumRuns cs
termination_by l => l.length
decreasing_by
  · have := dropWhile_length_le lowerAlnum cs
    simp only [List.length_cons]
    omega
  · simp

theorem alnumRuns_nil : alnumRuns [] = [] := by
  rw [alnumRuns]

theorem alnumRuns_cons_pos (c : Char) (cs : List Char) (h : lowerAlnum c = true) :
    alnumRuns (c :: cs) =
      (c :: cs.takeWhile lowerAlnum) :: alnumRuns (cs.dropWhile lowerAlnum) := by
  rw [alnumRuns, if_pos h]

theorem alnumRuns_cons_neg (c : Char) (cs : List Char) (h : lowerAlnum c = false) :
    alnumRuns (c :: cs) = alnumRuns cs := by
  rw [alnumRuns, if_neg (by simp [h])]

theorem takeWhile_all {α : Type} (p : α → Bool) (l : List α)
    (h : ∀ c ∈ l, p c = true) : l.takeWhile p = l := by
  induction l with
  | nil => rfl
  | cons c cs ih =>
    rw [List.takeWhile_cons, if_pos (h c (List.mem_cons_self c cs))]
    rw [ih (fun c' hc' => h c' (List.mem_cons_of_mem c hc'))]

theorem takeWhile_append_all {α : Type} (p : α → Bool) (l X : List α)
    (h : ∀ c ∈ l, p c = true) : (l ++ X).takeWhile p = l ++ X.takeWhile p := by
  induction l with
  | nil => rfl
  | cons c cs ih =>
    rw [List.cons_append, List.takeWhile_cons, if_pos (h c (List.mem_cons_self c cs))]
    rw [ih (fun c' hc' => h c' (List.mem_cons_of_mem c hc'))]
    rfl

theorem dropWhile_append_all {α : Type} (p : α → Bool) (l X : List α)
    (h : ∀ c ∈ l, p c = true) : (l ++ X).dropWhile p = X.dropWhile p := by
  induction l with
  | nil => rfl
  | cons c cs ih =>
    rw [List.cons_append, List.dropWhile_cons, if_pos (h c (List.mem_cons_self c cs))]
    exact ih (fun c' hc' => h c' (List.mem_cons_of_mem c hc'))

theorem takeWhile_head_neg {α : Type} (p : α → Bool) (X : List α)
    (h : ∀ e, X.head? = some e → p e = false) : X.takeWhile p = [] := by
  cases X with
  | nil => rfl
  | cons e X' =>
    rw [List.takeWhile_cons, if_neg (by simp [h e rfl])]

theorem dropWhile_head_neg {α : Type} (p : α → Bool) (X : List α)
    (h : ∀ e, X.head? = some e → p e = false) : X.dropWhile p = X := by
  cases X with
  | nil => rfl
  | cons e X' =>
    rw [List.dropWhile_cons, if_neg (by simp [h e rfl])]

/-- A non-empty all-alphanumeric run followed by a non-alphanumeric head
(or nothing) is the first run of the concatenation. -/
theorem alnumRuns_run_append (r X : List Char) (hr : r ≠ [])
    (hral : ∀ c ∈ r, lowerAlnum c = true)
    (hX : ∀ e, X.head? = some e → lowerAlnum e = false) :
    alnumRuns (r ++ X) = r :: alnumRuns X := by
  cases r with
  | nil => exact absurd rfl hr
  | cons c r' =>
    rw [List.cons_append, alnumRuns_cons_pos c _ (hral c (List.mem_cons_self c r'))]
    have hr' : ∀ c' ∈ r', lowerAlnum c' = true :=
      fun c' hc' => hral c' (List.mem_cons_of_mem c hc')
    rw [takeWhile_append_all _ _ _ hr', dropWhile_append_all _ _ _ hr',
      takeWhile_head_neg _ _ hX, dropWhile_head_neg _ _ hX, List.append_nil]

theorem alnumRuns_all_neg (w : List Char) (hw : ∀ c ∈ w, lowerAlnum c = false) :
    alnumRuns w = [] := by
  induction w with
  | nil => exact alnumRuns_nil
  | cons c w' ih =>
    rw [alnumRuns_cons_neg c w' (hw c (List.mem_cons_self c w'))]
    exact ih (fun c' hc' => hw c' (List.mem_cons_of_mem c hc'))

theorem dropWhile_head_false {α : Type} (p : α → Bool) (l : List α) (e : α)
    (rest : List α) (h : l.dropWhile p = e :: rest) : p e = false := by
  induction l with
  | nil => simp [List.dropWhile] at h
  | cons c cs ih =>
    rw [List.dropWhile_cons] at h
    by_cases hc : p c
    · rw [if_pos hc] at h
      exact ih h
    · rw [if_neg hc] at h
      cases h
      exact Bool.of_not_eq_true hc

theorem mem_takeWhile_true {α : Type} (p : α → Bool) (l : List α) (a : α)
    (h : a ∈ l.takeWhile p) : p a = true := by
  induction l with
  | nil => simp [List.takeWhile] at h
  | cons c cs ih =>
    rw [List.takeWhile_cons] at h
    by_cases hc : p c
    · rw [if_pos hc] at h
      rcases List.mem_cons.mp h with rfl | h
      · exact hc
      · exact ih h
    · rw [if_neg hc] at h
      exact absurd h (List.not_mem_nil a)

/-- Splitting at a non-alphanumeric separator splits the runs. -/
theorem alnumRuns_append_sep (sep : Char) (hsep : lowerAlnum sep = false)
    (l1 l2 : List Char) :
    alnumRuns (l1 ++ sep :: l2) = alnumRuns l1 ++ alnumRuns l2 := by
  generalize hn : l1.length = n
  induction n using Nat.strong_induction_on generalizing l1 l2 with
  | _ n ih =>
  cases l1 with
  | nil =>
    rw [List.nil_append, alnumRuns_cons_neg sep l2 hsep, alnumRuns_nil, List.nil_append]
  | cons c cs =>
    subst hn
    by_cases hc : lowerAlnum c = true
    · have hsplit : cs.takeWhile lowerAlnum ++ cs.dropWhile lowerAlnum = cs :=
        List.takeWhile_append_dropWhile lowerAlnum cs
      have htall : ∀ x ∈ cs.takeWhile lowerAlnum, lowerAlnum x = true :=
        fun x hx => mem_takeWhile_true lowerAlnum cs x hx
      rcases hd : cs.dropWhile lowerAlnum with _ | ⟨e, d'⟩
      · -- the run swallows all of `cs`
        have hcs : cs.takeWhile lowerAlnum = cs := by
          rw [hd, List.append_nil] at hsplit
          exact hsplit
        have hcsall : ∀ x ∈ cs, lowerAlnum x = true := fun x hx =>
          htall x (by rw [hcs]; exact hx)
        have hta : (cs ++ sep :: l2).takeWhile lowerAlnum = cs := by
          rw [takeWhile_append_all _ _ _ hcsall,
            takeWhile_head_neg lowerAlnum (sep :: l2)
              (fun x hx => by rw [List.head?_cons] at hx; cases hx; exact hsep),
            List.append_nil]
        have hda : (cs ++ sep :: l2).dropWhile lowerAlnum = sep :: l2 := by
          rw [dropWhile_append_all _ _ _ hcsall,
            dropWhile_head_neg lowerAlnum (sep :: l2)
              (fun x hx => by rw [List.head?_cons] at hx; cases hx; exact hsep)]
        rw [List.cons_append, alnumRuns_cons_pos c _ hc, hta, hda,
          alnumRuns_cons_neg sep l2 hsep, alnumRuns_cons_pos c cs hc, hd,
          alnumRuns_nil, hcs]
        rfl
      · have he : lowerAlnum e = false := dropWhile_head_false _ cs e d' hd
        have hdlen : (e :: d').length < (c :: cs).length := by
          have h1 := dropWhile_length_le lowerAlnum cs
          rw [hd] at h1
          simp only [List.length_cons] at h1 ⊢
          omega
        have hrw : cs ++ sep :: l2 =
            cs.takeWhile lowerAlnum ++ (e :: (d' ++ sep :: l2)) := by
          calc cs ++ sep :: l2
              = (cs.takeWhile lowerAlnum ++ cs.dropWhile lowerAlnum) ++ sep :: l2 := by
                rw [hsplit]
            _ = cs.takeWhile lowerAlnum ++ (e :: (d' ++ sep :: l2)) := by
                rw [hd, List.append_assoc]
                rfl
        have hta : (cs ++ sep :: l2).takeWhile lowerAlnum = cs.takeWhile lowerAlnum := by
          rw [hrw, takeWhile_append_all _ _ _ htall,
            takeWhile_head_neg lowerAlnum (e :: (d' ++ sep :: l2))
              (fun x hx => by rw [List.head?_cons] at hx; cases hx; exact he),
            List.append_nil]
        have hda : (cs ++ sep :: l2).dropWhile lowerAlnum = (e :: d') ++ sep :: l2 := by
          rw [hrw, dropWhile_append_all _ _ _ htall,
            dropWhile_head_neg lowerAlnum (e :: (d' ++ sep :: l2))
              (fun x hx => by rw [List.head?_cons] at hx; cases hx; exact he)]
          rfl
        rw [List.cons_append, alnumRuns_cons_pos c _ hc, hta, hda,
          ih (e :: d').length hdlen (e :: d') l2 rfl,
          alnumRuns_cons_pos c cs hc, hd]
        rfl
    · have hc' : lowerAlnum c = false := Bool.of_not_eq_true hc
      have hlen : cs.length < (c :: cs).length := by simp
      rw [List.cons_append, alnumRuns_cons_neg c _ hc',
        ih cs.length hlen cs l2 rfl, alnumRuns_cons_neg c cs hc']

/-- Appending only non-alphanumeric characters does not change the runs. -/
theorem alnumRuns_append_nal (l w : List Char)
    (hw : ∀ c ∈ w, lowerAlnum c = false) : alnumRuns (l ++ w) = alnumRuns l := by
  cases w with
  | nil => rw [List.append_nil]
  | cons e w' =>
    rw [alnumRuns_append_sep e (hw e (List.mem_cons_self e w')) l w',
      alnumRuns_all_neg w' (fun c hc => hw c (List.mem_cons_of_mem e hc)),
      List.append_nil]

/-- Dropping leading non-alphanumeric characters does not change the runs. -/
theorem alnumRuns_dropWhile_ws (l : List Char) :
    alnumRuns (l.dropWhile isWsChar) = alnumRuns l := by
  induction l with
  | nil => rfl
  | cons c cs ih =>
    rw [List.dropWhile_cons]
    by_cases hc : isWsChar c
    · rw [if_pos hc]
      rw [ih, alnumRuns_cons_neg c cs ?hna]
      case hna =>
        unfold isWsChar at hc
        rcases Bool.or_eq_true_iff.mp hc with h | h
        · rcases Bool.or_eq_true_iff.mp h with h | h
          · rcases Bool.or_eq_true_iff.mp h with h | h <;>
              · rw [decide_eq_true_iff.mp h]; decide
          · rw [decide_eq_true_iff.mp h]; decide
        · rw [decide_eq_true_iff.mp h]; decide
    · rw [if_neg hc]

/-- Whitespace characters are not alphanumeric. -/
theorem ws_not_alnum (c : Char) (h : isWsChar c = true) : lowerAlnum c = false := by
  unfold isWsChar at h
  rcases Bool.or_eq_true_iff.mp h with h | h
  · rcases Bool.or_eq_true_iff.mp h with h | h
    · rcases Bool.or_eq_true_iff.mp h with h | h <;>
        · rw [decide_eq_true_iff.mp h]; decide
    · rw [decide_eq_true_iff.mp h]; decide
  · rw [decide_eq_true_iff.mp h]; decide

/-- Trimming whitespace does not change the runs. -/
theorem alnumRuns_trimChars (l : List Char) :
    alnumRuns (trimChars l) = alnumRuns l := by
  unfold trimChars
  have hA : (l.dropWhile isWsChar).reverse.takeWhile isWsChar ++
      (l.dropWhile isWsChar).reverse.dropWhile isWsChar = (l.dropWhile isWsChar).reverse :=
    List.takeWhile_append_dropWhile isWsChar (l.dropWhile isWsChar).reverse
  have hdecomp : l.dropWhile isWsChar =
      ((l.dropWhile isWsChar).reverse.dropWhile isWsChar).reverse ++
        ((l.dropWhile isWsChar).reverse.takeWhile isWsChar).reverse := by
    have := congrArg List.reverse hA
    rw [List.reverse_append, List.reverse_reverse] at this
    exact this.symm
  have hws : ∀ c ∈ ((l.dropWhile isWsChar).reverse.takeWhile isWsChar).reverse,
      lowerAlnum c = false := by
    intro c hc
    rw [List.mem_reverse] at hc
    exact ws_not_alnum c (mem_takeWhile_true isWsChar _ c hc)
  calc alnumRuns ((l.dropWhile isWsChar).reverse.dropWhile isWsChar).reverse
      = alnumRuns (((l.dropWhile isWsChar).reverse.dropWhile isWsChar).reverse ++
          ((l.dropWhile isWsChar).reverse.takeWhile isWsChar).reverse) :=
        (alnumRuns_append_nal _ _ hws).symm
    _ = alnumRuns (l.dropWhile isWsChar) := by rw [← hdecomp]
    _ = alnumRuns l := alnumRuns_dropWhile_ws l

/-- `squashRuns` output characters are kept input characters or `' '`. -/
theorem squashRuns_mem (keep : Char → Bool) (b : Bool) (l : List Char) :
    ∀ c' ∈ squashRuns keep b l, (c' ∈ l ∧ keep c' = true) ∨ c' = ' ' := by
  induction l generalizing b with
  | nil => simp [squashRuns]
  | cons c cs ih =>
    intro c' hc'
    simp only [squashRuns] at hc'
    by_cases hk : keep c
    · rw [if_pos hk] at hc'
      rcases List.mem_cons.mp hc' with rfl | hc'
      · exact Or.inl ⟨List.mem_cons_self c' cs, hk⟩
      · rcases ih false c' hc' with ⟨h1, h2⟩ | h
        · exact Or.inl ⟨List.mem_cons_of_mem c h1, h2⟩
        · exact Or.inr h
    · rw [if_neg hk] at hc'
      by_cases hb : b
      · rw [if_pos hb] at hc'
        rcases ih true c' hc' with ⟨h1, h2⟩ | h
        · exact Or.inl ⟨List.mem_cons_of_mem c h1, h2⟩
        · exact Or.inr h
      · rw [if_neg hb] at hc'
        rcases List.mem_cons.mp hc' with rfl | hc'
        · exact Or.inr rfl
        · rcases ih true c' hc' with ⟨h1, h2⟩ | h
          · exact Or.inl ⟨List.mem_cons_of_mem c h1, h2⟩
          · exact Or.inr h

theorem squashRuns_append_all (keep : Char → Bool) (t d : List Char)
    (ht : ∀ c ∈ t, keep c = true) :
    squashRuns keep false (t ++ d) = t ++ squashRuns keep false d := by
  induction t with
  | nil => rfl
  | cons c t' ih =>
    rw [List.cons_append]
    simp only [squashRuns, if_pos (ht c (List.mem_cons_self c t'))]
    rw [ih (fun c' hc' => ht c' (List.mem_cons_of_mem c hc'))]
    rfl

theorem space_not_alnum : lowerAlnum ' ' = false := by decide

/-- Squashing runs of non-kept characters (for any `keep` that keeps all
alphanumerics) preserves the alphanumeric runs. -/
theorem alnumRuns_squashRuns (keep : Char → Bool)
    (hkeep : ∀ c, lowerAlnum c = true → keep c = true) (b : Bool) (l : List Char) :
    alnumRuns (squashRuns keep b l) = alnumRuns l := by
  generalize hn : l.length = n
  induction n using Nat.strong_induction_on generalizing l b with
  | _ n ih =>
  cases l with
  | nil => rfl
  | cons c cs =>
    subst hn
    by_cases hc : lowerAlnum c = true
    · have hkc : keep c = true := hkeep c hc
      have hsplit : cs.takeWhile lowerAlnum ++ cs.dropWhile lowerAlnum = cs :=
        List.takeWhile_append_dropWhile lowerAlnum cs
      have htall : ∀ x ∈ cs.takeWhile lowerAlnum, lowerAlnum x = true :=
        fun x hx => mem_takeWhile_true lowerAlnum cs x hx
      have htkeep : ∀ x ∈ cs.takeWhile lowerAlnum, keep x = true :=
        fun x hx => hkeep x (htall x hx)
      have hstep : squashRuns keep b (c :: cs) =
          (c :: cs.takeWhile lowerAlnum) ++
            squashRuns keep false (cs.dropWhile lowerAlnum) := by
        simp only [squashRuns, if_pos hkc]
        rw [show cs = cs.takeWhile lowerAlnum ++ cs.dropWhile lowerAlnum from hsplit.symm,
          squashRuns_append_all keep _ _ htkeep]
        rw [hsplit]
        rfl
      have hXhead : ∀ e, (squashRuns keep false (cs.dropWhile lowerAlnum)).head? = some e →
          lowerAlnum e = false := by
        intro e he
        rcases hd : cs.dropWhile lowerAlnum with _ | ⟨x, d'⟩
        · rw [hd] at he
          simp [squashRuns] at he
        · have hx : lowerAlnum x = false := dropWhile_head_false _ cs x d' hd
          rw [hd] at he
          simp only [squashRuns] at he
          by_cases hkx : keep x
          · rw [if_pos hkx] at he
            rw [List.head?_cons] at he
            cases he
            exact hx
          · rw [if_neg hkx, if_neg (by simp)] at he
            rw [List.head?_cons] at he
            cases he
            exact space_not_alnum
      have hdn : (cs.dropWhile lowerAlnum).length < (c :: cs).length := by
        have := dropWhile_length_le lowerAlnum cs
        simp only [List.length_cons]
        omega
      rw [hstep,
        alnumRuns_run_append (c :: cs.takeWhile lowerAlnum) _ (by simp)
          (fun x hx => by
            rcases List.mem_cons.mp hx with rfl | hx
            · exact hc
            · exact htall x hx) hXhead,
        ih _ hdn false _ rfl, alnumRuns_cons_pos c cs hc]
    · have hc' : lowerAlnum c = false := Bool.of_not_eq_true hc
      have hlen : cs.length < (c :: cs).length := by simp
      simp only [squashRuns]
      by_cases hkc : keep c
      · rw [if_pos hkc, alnumRuns_cons_neg c _ hc', ih cs.length hlen false cs rfl,
          alnumRuns_cons_neg c cs hc']
      · rw [if_neg hkc]
        by_cases hb : b
        · rw [if_pos hb, ih cs.length hlen true cs rfl, alnumRuns_cons_neg c cs hc']
        · rw [if_neg hb, alnumRuns_cons_neg ' ' _ space_not_alnum,
            ih cs.length hlen true cs rfl, alnumRuns_cons_neg c cs hc']

theorem mem_of_mem_dropWhile {α : Type} (p : α → Bool) (l : List α) (a : α)
    (h : a ∈ l.dropWhile p) : a ∈ l := by
  induction l with
  | nil => simpa [List.dropWhile] using h
  | cons c cs ih =>
    rw [List.dropWhile_cons] at h
    by_cases hc : p c
    · rw [if_pos hc] at h
      exact List.mem_cons_of_mem c (ih h)
    · rwa [if_neg hc] at h

theorem alnum_ne_space (c : Char) (h : lowerAlnum c = true) : ¬(c = ' ') := by
  intro hc
  rw [hc] at h
  exact absurd h (by decide)

theorem splitChar_nil (sep : Char) : splitChar sep [] = [[]] := rfl

theorem splitChar_cons_sep (sep : Char) (cs : List Char) :
    splitChar sep (sep :: cs) = [] :: splitChar sep cs := by
  simp [splitChar]

theorem splitChar_run_append (r X : List Char) (hr : ∀ c ∈ r, ¬(c = ' ')) :
    splitChar ' ' (r ++ X) =
      (r ++ (splitChar ' ' X).headD []) :: (splitChar ' ' X).tail := by
  induction r with
  | nil =>
    rcases h : splitChar ' ' X with _ | ⟨g, gs⟩
    · exact absurd h (splitChar_ne_nil ' ' X)
    · simp [h]
  | cons c r' ih =>
    rw [List.cons_append]
    simp only [splitChar]
    rw [ih (fun c' hc' => hr c' (List.mem_cons_of_mem c hc')),
      if_neg (hr c (List.mem_cons_self c r'))]
    simp

/-- On strings of alphanumerics and spaces, splitting at spaces and
dropping empties yields exactly the alphanumeric runs. -/
theorem splitChar_filter_eq_runs (m : List Char)
    (hm : ∀ c ∈ m, lowerAlnum c = true ∨ c = ' ') :
    (splitChar ' ' m).filter (fun g => !g.isEmpty) = alnumRuns m := by
  generalize hn : m.length = n
  induction n using Nat.strong_induction_on generalizing m with
  | _ n ih =>
  cases m with
  | nil =>
    subst hn
    rw [alnumRuns_nil]
    rfl
  | cons c cs =>
    subst hn
    by_cases hsp : c = ' '
    · subst hsp
      rw [splitChar_cons_sep, List.filter_cons, if_neg (by simp),
        ih cs.length (by simp) cs
          (fun c' hc' => hm c' (List.mem_cons_of_mem ' ' hc')) rfl,
        alnumRuns_cons_neg ' ' cs space_not_alnum]
    · have hal : lowerAlnum c = true := by
        rcases hm c (List.mem_cons_self c cs) with h | h
        · exact h
        · exact absurd h hsp
      have hsplit : cs.takeWhile lowerAlnum ++ cs.dropWhile lowerAlnum = cs :=
        List.takeWhile_append_dropWhile lowerAlnum cs
      have htall : ∀ x ∈ cs.takeWhile lowerAlnum, lowerAlnum x = true :=
        fun x hx => mem_takeWhile_true lowerAlnum cs x hx
      have hrns : ∀ x ∈ c :: cs.takeWhile lowerAlnum, ¬(x = ' ') := by
        intro x hx
        rcases List.mem_cons.mp hx with rfl | hx
        · exact hsp
        · exact alnum_ne_space x (htall x hx)
      rcases hd : cs.dropWhile lowerAlnum with _ | ⟨e, d2⟩
      · have hcs : cs.takeWhile lowerAlnum = cs := by
          rw [hd, List.append_nil] at hsplit
          exact hsplit
        have hrns' : ∀ x ∈ c :: cs, ¬(x = ' ') := by
          rw [← hcs]
          exact hrns
        conv_lhs => rw [show c :: cs = (c :: cs) ++ ([] : List Char) from
          (List.append_nil _).symm]
        rw [splitChar_run_append _ _ hrns', splitChar_nil]
        rw [alnumRuns_cons_pos c cs hal, hd, alnumRuns_nil, hcs]
        simp
      · have he : lowerAlnum e = false := dropWhile_head_false _ cs e d2 hd
        have hecs : e ∈ cs := mem_of_mem_dropWhile lowerAlnum cs e (by rw [hd]; simp)
        have hesp : e = ' ' := by
          rcases hm e (List.mem_cons_of_mem c hecs) with h | h
          · rw [h] at he
            cases he
          · exact h
        subst hesp
        have hd2sub : ∀ c' ∈ d2, lowerAlnum c' = true ∨ c' = ' ' := by
          intro c' hc'
          have : c' ∈ cs := mem_of_mem_dropWhile lowerAlnum cs c' (by rw [hd]; simp [hc'])
          exact hm c' (List.mem_cons_of_mem c this)
        have hd2len : d2.length < (c :: cs).length := by
          have h1 := dropWhile_length_le lowerAlnum cs
          rw [hd] at h1
          simp only [List.length_cons] at h1 ⊢
          omega
        have hdec : c :: cs = (c :: cs.takeWhile lowerAlnum) ++ (' ' :: d2) := by
          rw [List.cons_append]
          congr 1
          rw [← hd]
          exact hsplit.symm
        conv_lhs => rw [hdec]
        rw [splitChar_run_append _ _ hrns, splitChar_cons_sep]
        simp only [List.headD_cons, List.tail_cons, List.append_nil]
        rw [List.filter_cons, if_pos (by simp),
          ih d2.length hd2len d2 hd2sub rfl, alnumRuns_cons_pos c cs hal, hd,
          alnumRuns_cons_neg ' ' d2 space_not_alnum]

theorem normTextChars_chars (l : List Char) :
    ∀ c ∈ normTextChars l, lowerAlnum c = true ∨ c = ' ' := by
  intro c hc
  unfold normTextChars trimChars at hc
  rw [List.mem_reverse] at hc
  have hc2 := mem_of_mem_dropWhile _ _ _ hc
  rw [List.mem_reverse] at hc2
  have hc3 := mem_of_mem_dropWhile _ _ _ hc2
  rcases squashRuns_mem _ _ _ c hc3 with ⟨h1, _⟩ | h
  · rcases squashRuns_mem _ _ _ c h1 with ⟨_, h2⟩ | h
    · exact Or.inl h2
    · exact Or.inr h
  · exact Or.inr h

theorem keepNonWs_of_alnum : ∀ c : Char, lowerAlnum c = true → (!isWsChar c) = true := by
  intro c h
  rcases hw : isWsChar c with _ | _
  · simp
  · rw [ws_not_alnum c hw] at h
    cases h

theorem alnumRuns_normTextChars (l : List Char) :
    alnumRuns (normTextChars l) = alnumRuns l := by
  unfold normTextChars
  rw [alnumRuns_trimChars, alnumRuns_squashRuns _ keepNonWs_of_alnum,
    alnumRuns_squashRuns lowerAlnum (fun _ h => h)]

theorem mk_eq_empty_iff (g : List Char) : String.mk g = "" ↔ g = [] := by
  constructor
  · intro h
    have := congrArg String.data h
    simpa using this
  · intro h
    rw [h]

theorem filter_map_mk (X : List (List Char)) :
    ((X.map String.mk).filter (· ≠ "")) = (X.filter (fun g => !g.isEmpty)).map String.mk := by
  induction X with
  | nil => rfl
  | cons g X' ih =>
    rw [List.map_cons, List.filter_cons, List.filter_cons]
    by_cases hg : g = []
    · subst hg
      simp only [List.isEmpty_nil, Bool.not_true]
      rw [if_neg (by simp [mk_eq_empty_iff]), if_neg (by simp)]
      exact ih
    · rw [if_pos (by simp [mk_eq_empty_iff, hg]),
        if_pos (by simp [List.isEmpty_iff, hg]), List.map_cons, ih]

/-- The faithful splitting pipeline equals the canonical run decomposition. -/
theorem textWords_eq_runs (strip : String → String) (t : String) :
    textWords strip t = (alnumRuns ((lowerStr (strip t)).data)).map String.mk := by
  unfold textWords splitWsRuns normalizeText
  rw [show (String.mk (normTextChars (lowerStr (strip t)).data)).data =
      normTextChars (lowerStr (strip t)).data from rfl]
  rw [filter_map_mk]
  congr 1
  have hchars : ∀ c ∈ squashRuns (fun c => !isWsChar c) false
      (normTextChars (lowerStr (strip t)).data), lowerAlnum c = true ∨ c = ' ' := by
    intro c hc
    rcases squashRuns_mem _ _ _ c hc with ⟨h1, _⟩ | h
    · exact normTextChars_chars _ c h1
    · exact Or.inr h
  rw [splitChar_filter_eq_runs _ hchars,
    alnumRuns_squashRuns _ keepNonWs_of_alnum, alnumRuns_normTextChars]

/-- A non-empty all-alphanumeric string (a produced word token). -/
def wordLike (w : String) : Prop :=
  w.data ≠ [] ∧ ∀ c ∈ w.data, lowerAlnum c = true

theorem lowerChar_fix (c : Char) (h : lowerAlnum c = true ∨ c = ' ') :
    lowerChar c = c := by
  unfold lowerChar
  rcases h with h | rfl
  · unfold lowerAlnum at h
    rcases Bool.or_eq_true_iff.mp h with h | h
    · rcases Bool.and_eq_true_iff.mp h with ⟨h1, h2⟩
      rw [decide_eq_true_iff] at h1
      refine if_neg (fun hAZ => ?_)
      have : ('a' : Char) ≤ 'Z' := le_trans h1 hAZ.2
      exact absurd this (by decide)
    · rcases Bool.and_eq_true_iff.mp h with ⟨h1, h2⟩
      rw [decide_eq_true_iff] at h2
      refine if_neg (fun hAZ => ?_)
      have : ('A' : Char) ≤ '9' := le_trans hAZ.1 h2
      exact absurd this (by decide)
  · rfl

theorem lowerStr_fix (s : String) (h : ∀ c ∈ s.data, lowerAlnum c = true ∨ c = ' ') :
    lowerStr s = s := by
  unfold lowerStr
  have : s.data.map lowerChar = s.data.map id :=
    List.map_congr_left (fun c hc => lowerChar_fix c (h c hc))
  rw [this, List.map_id]

theorem lowerStr_append (a b : String) :
    lowerStr (a ++ b) = lowerStr a ++ lowerStr b := by
  unfold lowerStr
  rw [String.data_append, List.map_append]
  rfl

theorem lowerStr_space : lowerStr " " = " " := by
  have : ∀ c ∈ (" " : String).data, lowerAlnum c = true ∨ c = ' ' := by
    intro c hc
    rw [show (" " : String).data = [' '] from rfl] at hc
    rcases List.mem_singleton.mp hc with rfl
    exact Or.inr rfl
  exact lowerStr_fix " " this

theorem strip_empty (strip : String → String)
    (Hascii : ∀ s : String, (∀ c ∈ s.data, lowerAlnum c = true ∨ c = ' ') → strip s = s) :
    strip "" = "" := by
  refine Hascii "" ?_
  intro c hc
  rw [show ("" : String).data = [] from rfl] at hc
  exact absurd hc (List.not_mem_nil c)

theorem strip_space (strip : String → String)
    (Hascii : ∀ s : String, (∀ c ∈ s.data, lowerAlnum c = true ∨ c = ' ') → strip s = s) :
    strip " " = " " := by
  refine Hascii " " ?_
  intro c hc
  rw [show (" " : String).data = [' '] from rfl] at hc
  rcases List.mem_singleton.mp hc with rfl
  exact Or.inr rfl

theorem textWords_empty (strip : String → String)
    (Hascii : ∀ s : String, (∀ c ∈ s.data, lowerAlnum c = true ∨ c = ' ') → strip s = s) :
    textWords strip "" = [] := by
  rw [textWords_eq_runs, strip_empty strip Hascii,
    show lowerStr "" = "" from rfl, show ("" : String).data = [] from rfl,
    alnumRuns_nil]
  rfl

/-- The runs of any list are non-empty all-alphanumeric segments. -/
theorem alnumRuns_elems (l g : List Char) (hg : g ∈ alnumRuns l) :
    g ≠ [] ∧ ∀ c ∈ g, lowerAlnum c = true := by
  generalize hn : l.length = n
  induction n using Nat.strong_induction_on generalizing l g with
  | _ n ih =>
  cases l with
  | nil =>
    rw [alnumRuns_nil] at hg
    exact absurd hg (List.not_mem_nil g)
  | cons c cs =>
    subst hn
    by_cases hc : lowerAlnum c = true
    · rw [alnumRuns_cons_pos c cs hc] at hg
      rcases List.mem_cons.mp hg with rfl | hg
      · refine ⟨by simp, ?_⟩
        intro x hx
        rcases List.mem_cons.mp hx with rfl | hx
        · exact hc
        · exact mem_takeWhile_true lowerAlnum cs x hx
      · have hlen : (cs.dropWhile lowerAlnum).length < (c :: cs).length := by
          have := dropWhile_length_le lowerAlnum cs
          simp only [List.length_cons]
          omega
        exact ih _ hlen _ g hg rfl
    · rw [alnumRuns_cons_neg c cs (Bool.of_not_eq_true hc)] at hg
      exact ih cs.length (by simp) cs g hg rfl

theorem textWords_wordLike (strip : String → String) (t w : String)
    (hw : w ∈ textWords strip t) : wordLike w := by
  rw [textWords_eq_runs] at hw
  obtain ⟨g, hg, rfl⟩ := List.mem_map.mp hw
  obtain ⟨h1, h2⟩ := alnumRuns_elems _ g hg
  exact ⟨by simpa using h1, by simpa using h2⟩

theorem mapGetLast_mem {α : Type} (m : List (String × α)) (k : String) (v : α)
    (h : mapGetLast m k = some v) : (k, v) ∈ m := by
  unfold mapGetLast at h
  have := lookup_mem m.reverse k v h
  rwa [List.mem_reverse] at this

theorem cohortNameTokens_wordLike (strip : String → String) (roster : List RosterRow)
    (p : PubRow) (w : String) (hw : w ∈ cohortNameTokens strip roster p) : wordLike w := by
  unfold cohortNameTokens at hw
  revert w
  refine foldl_inv (fun acc : List String => ∀ w ∈ acc, wordLike w) _ _ []
    (by simp) ?_
  intro acc aid hacc _
  dsimp only
  rcases hlk : mapGetLast (cohortTokensByID strip roster) aid with _ | toks
  · exact hacc
  · dsimp only
    by_cases htk : toks ≠ []
    · rw [if_pos htk]
      intro w hw
      rcases List.mem_append.mp hw with hw | hw
      · exact hacc w hw
      · have hmem := mapGetLast_mem _ _ _ hlk
        unfold cohortTokensByID at hmem
        obtain ⟨r, _, hr⟩ := List.mem_map.mp hmem
        have : toks = textWords strip r.Name := by
          have := congrArg Prod.snd hr
          exact this.symm
        rw [this] at hw
        exact textWords_wordLike strip r.Name w hw
    · rw [if_neg htk]
      exact hacc

theorem wordLike_runs (w : String) (h : wordLike w) :
    alnumRuns w.data = [w.data] := by
  have := alnumRuns_run_append w.data [] h.1 h.2
    (fun e he => by rw [List.head?_nil] at he; cases he)
  rw [List.append_nil] at this
  rw [this, alnumRuns_nil]

theorem joinSpace_chars (toks : List String) (h : ∀ w ∈ toks, ∀ c ∈ w.data, lowerAlnum c = true) :
    ∀ c ∈ (joinSpace toks).data, lowerAlnum c = true ∨ c = ' ' := by
  induction toks with
  | nil =>
    intro c hc
    rw [show (joinSpace [] : String).data = [] from rfl] at hc
    exact absurd hc (List.not_mem_nil c)
  | cons x xs ih =>
    cases xs with
    | nil =>
      intro c hc
      rw [show joinSpace [x] = x from rfl] at hc
      exact Or.inl (h x (List.mem_singleton.mpr rfl) c hc)
    | cons y ys =>
      intro c hc
      rw [show joinSpace (x :: y :: ys) = x ++ " " ++ joinSpace (y :: ys) from rfl,
        String.data_append, String.data_append] at hc
      rcases List.mem_append.mp hc with hc | hc
      · rcases List.mem_append.mp hc with hc | hc
        · exact Or.inl (h x (List.mem_cons_self x _) c hc)
        · rw [show (" " : String).data = [' '] from rfl] at hc
          rcases List.mem_singleton.mp hc with rfl
          exact Or.inr rfl
      · exact ih (fun w hw => h w (List.mem_cons_of_mem x hw)) c hc

theorem alnumRuns_joinWords (toks : List String) (h : ∀ w ∈ toks, wordLike w) :
    alnumRuns ((joinSpace toks).data) = toks.map String.data := by
  induction toks with
  | nil =>
    rw [show (joinSpace [] : String).data = [] from rfl, alnumRuns_nil, List.map_nil]
  | cons x xs ih =>
    cases xs with
    | nil =>
      rw [show joinSpace [x] = x from rfl, wordLike_runs x (h x (List.mem_singleton.mpr rfl))]
      rfl
    | cons y ys =>
      have hx := h x (List.mem_cons_self x _)
      rw [show joinSpace (x :: y :: ys) = x ++ " " ++ joinSpace (y :: ys) from rfl,
        String.data_append, String.data_append,
        show (" " : String).data = [' '] from rfl, List.append_assoc,
        List.singleton_append, alnumRuns_append_sep ' ' space_not_alnum,
        ih (fun w hw => h w (List.mem_cons_of_mem x hw)), wordLike_runs x hx,
        List.map_cons]
      rfl

theorem runs_joinSpace (strip : String → String)
    (Hhom : ∀ a b, strip (a ++ b) = strip a ++ strip b)
    (Hascii : ∀ s : String, (∀ c ∈ s.data, lowerAlnum c = true ∨ c = ' ') → strip s = s)
    (parts : List String) :
    alnumRuns ((lowerStr (strip (lowerStr (joinSpace parts)))).data) =
      (parts.map (fun part =>
        alnumRuns ((lowerStr (strip (lowerStr part))).data))).flatten := by
  induction parts with
  | nil =>
    rw [show joinSpace [] = "" from rfl, show lowerStr "" = "" from rfl,
      strip_empty strip Hascii, show lowerStr "" = "" from rfl,
      show ("" : String).data = [] from rfl, alnumRuns_nil, List.map_nil, List.flatten_nil]
  | cons x xs ih =>
    cases xs with
    | nil =>
      rw [show joinSpace [x] = x from rfl]
      simp
    | cons y ys =>
      rw [show joinSpace (x :: y :: ys) = x ++ " " ++ joinSpace (y :: ys) from rfl,
        lowerStr_append, lowerStr_append, lowerStr_space, Hhom, Hhom,
        strip_space strip Hascii, lowerStr_append, lowerStr_append, lowerStr_space,
        String.data_append, String.data_append,
        show (" " : String).data = [' '] from rfl, List.append_assoc,
        List.singleton_append, alnumRuns_append_sep ' ' space_not_alnum, ih,
        List.map_cons, List.flatten_cons]
      rfl

/-- The words of the stored haystack are exactly the concatenation of the
words of its parts. -/
theorem textWords_topicHaystack (strip : String → String) (roster : List RosterRow)
    (p : PubRow)
    (Hhom : ∀ a b, strip (a ++ b) = strip a ++ strip b)
    (Hascii : ∀ s : String, (∀ c ∈ s.data, lowerAlnum c = true ∨ c = ' ') → strip s = s) :
    textWords strip (topicHaystack strip roster p) =
      ((haystackParts strip roster p).map
        (fun part => textWords strip (lowerStr part))).flatten := by
  rw [textWords_eq_runs]
  have hchars : ∀ c ∈ (topicHaystack strip roster p).data,
      lowerAlnum c = true ∨ c = ' ' := by
    intro c hc
    unfold topicHaystack normalizeText at hc
    rw [show (String.mk (normTextChars
      (lowerStr (strip (lowerStr (joinSpace (haystackParts strip roster p))))).data)).data =
        normTextChars
          (lowerStr (strip (lowerStr (joinSpace (haystackParts strip roster p))))).data
      from rfl] at hc
    exact normTextChars_chars _ c hc
  rw [Hascii _ hchars, lowerStr_fix _ hchars,
    show (topicHaystack strip roster p).data = normTextChars
      ((lowerStr (strip (lowerStr (joinSpace (haystackParts strip roster p))))).data)
      from rfl,
    alnumRuns_normTextChars, runs_joinSpace strip Hhom Hascii, List.map_flatten,
    List.map_map]
  congr 1
  refine List.map_congr_left ?_
  intro part _
  rw [textWords_eq_runs]
  rfl

theorem stem_mem_haystack_tokens (strip : String → String) (roster : List RosterRow)
    (p : PubRow)
    (Hhom : ∀ a b, strip (a ++ b) = strip a ++ strip b)
    (Hascii : ∀ s : String, (∀ c ∈ s.data, lowerAlnum c = true ∨ c = ' ') → strip s = s)
    (part : String) (hpart : part ∈ haystackParts strip roster p) (w : String)
    (hw : w ∈ textWords strip (lowerStr part)) :
    stem w ∈ tokenize strip (topicHaystack strip roster p) := by
  refine (mem_tokenize strip _ _).mpr ⟨w, ?_, rfl⟩
  rw [textWords_topicHaystack strip roster p Hhom Hascii]
  exact List.mem_flatten.mpr
    ⟨textWords strip (lowerStr part), List.mem_map.mpr ⟨part, hpart, rfl⟩, hw⟩

theorem textWords_joinWords (strip : String → String)
    (Hascii : ∀ s : String, (∀ c ∈ s.data, lowerAlnum c = true ∨ c = ' ') → strip s = s)
    (toks : List String) (h : ∀ w ∈ toks, wordLike w) :
    textWords strip (lowerStr (joinSpace toks)) = toks := by
  have hchars := joinSpace_chars toks (fun w hw => (h w hw).2)
  rw [lowerStr_fix _ hchars, textWords_eq_runs, Hascii _ hchars,
    lowerStr_fix _ hchars, alnumRuns_joinWords toks h, List.map_map]
  have : toks.map (String.mk ∘ String.data) = toks.map id :=
    List.map_congr_left (fun w _ => rfl)
  rw [this, List.map_id]

/-- C9: a publication passes the topic-query filter exactly when every
whitespace-separated query token, after normalization and light stemming,
is equal to some stemmed token of the publication's searchable haystack;
and that haystack indeed contains the tokens of the title, the primary
topic and subfield names, the concept list, and the name tokens of cohort
authors on the work.  The platform's NFKD diacritic stripper is a parameter
`strip`, assumed to distribute over concatenation and to fix
already-normalized ASCII text. -/
theorem C9_topic_filter_characterization (strip : String → String)
    (roster : List RosterRow) (q : String) (p : PubRow)
    (Hhom : ∀ a b, strip (a ++ b) = strip a ++ strip b)
    (Hascii : ∀ s : String, (∀ c ∈ s.data, lowerAlnum c = true ∨ c = ' ') → strip s = s) :
    (passesTopicFilter strip roster q p = true ↔
      ∀ w ∈ textWords strip q,
        stem w ∈ tokenize strip (topicHaystack strip roster p)) ∧
    (∀ w ∈ textWords strip (lowerStr p.display_name),
      stem w ∈ tokenize strip (topicHaystack strip roster p)) ∧
    (∀ w ∈ textWords strip (lowerStr p.primary_topic__display_name),
      stem w ∈ tokenize strip (topicHaystack strip roster p)) ∧
    (∀ w ∈ textWords strip (lowerStr p.primary_topic__subfield__display_name),
      stem w ∈ tokenize strip (topicHaystack strip roster p)) ∧
    (∀ w ∈ textWords strip (lowerStr p.concepts_list),
      stem w ∈ tokenize strip (topicHaystack strip roster p)) ∧
    (∀ w ∈ cohortNameTokens strip roster p,
      stem w ∈ tokenize strip (topicHaystack strip roster p)) := by
  refine ⟨?_, ?_, ?_, ?_, ?_, ?_⟩
  · unfold passesTopicFilter
    by_cases hq : q = ""
    · rw [if_pos hq, hq]
      simp [textWords_empty strip Hascii]
    · rw [if_neg hq]
      exact fuzzyQueryMatch_iff strip q _
  · intro w hw
    refine stem_mem_haystack_tokens strip roster p Hhom Hascii p.display_name ?_ w hw
    unfold haystackParts
    simp
  · intro w hw
    refine stem_mem_haystack_tokens strip roster p Hhom Hascii
      p.primary_topic__display_name ?_ w hw
    unfold haystackParts
    simp
  · intro w hw
    refine stem_mem_haystack_tokens strip roster p Hhom Hascii
      p.primary_topic__subfield__display_name ?_ w hw
    unfold haystackParts
    simp
  · intro w hw
    refine stem_mem_haystack_tokens strip roster p Hhom Hascii p.concepts_list ?_ w hw
    unfold haystackParts
    simp
  · intro w hw
    have hne : cohortNameTokens strip roster p ≠ [] := List.ne_nil_of_mem hw
    have hpart : joinSpace (cohortNameTokens strip roster p) ∈
        haystackParts strip roster p := by
      unfold haystackParts
      rw [if_pos hne]
      simp
    refine stem_mem_haystack_tokens strip roster p Hhom Hascii _ hpart w ?_
    rw [textWords_joinWords strip Hascii _
      (fun w' hw' => cohortNameTokens_wordLike strip roster p w' hw')]
    exact hw

/-- A roster member appearing on a work whose title mentions running dogs. -/
def rosterAda : List RosterRow := [{ OpenAlexID := "A1", Name := "Ada Lovelace" }]

def pubDogs : PubRow :=
  { display_name := "Running Dogs Study",
    concepts_list := "Biology|Ecology",
    cohort_union_author_ids := "A1" }

/-- C9 witness: with `strip = id` both platform hypotheses hold
definitionally; the query `"dog"` passes the filter on `pubDogs`, so the
characterization produces a matching haystack token. -/
theorem C9_witness :
    passesTopicFilter id rosterAda "dog" pubDogs = true ∧
      (∀ w ∈ textWords id "dog",
        stem w ∈ tokenize id (topicHaystack id rosterAda pubDogs)) :=
  ⟨by decide,
    (C9_topic_filter_characterization id rosterAda "dog" pubDogs
      (fun a b => rfl) (fun s h => rfl)).1.mp (by decide)⟩

end Dashboard
